import Mathlib

/-!
# netwc: whole-word counting over fetched URLs with a worker pool

A shallow embedding of `main.go`.  The file has three layers:

* the matcher `wordMatch = regexp.MustCompile("\\b" + QuoteMeta(word) + "\\b")` run through
  `MatchReader(bufio.NewReader(res.Body))`, with the response body given as the sequence of
  deliveries that successive `Read` calls on it return;
* the counting loop of `fetcher.worker`;
* the coordinator (`main`) and the workers as a labelled transition system over the three
  buffered channels.

Runes are `Char`; the end-of-text rune `-1` of the regexp machine is `none`.
Deliveries are lists of whole runes (a `Read` never splits a rune); for ASCII bodies this is
no restriction.
-/

namespace Netwc

/-! ## The regexp machine for `\b word \b` -/

/-- Go `syntax.IsWordChar`: ASCII letters, digits and underscore (`-1` is not a word rune). -/
def isWordChar : Option Char → Bool
  | none => false
  | some c =>
    (decide ('A' ≤ c) && decide (c ≤ 'Z')) || (decide ('a' ≤ c) && decide (c ≤ 'z')) ||
      (decide ('0' ≤ c) && decide (c ≤ '9')) || c == '_'

/-- Go `lazyFlag.match(EmptyWordBoundary)` for the pair (rune before, rune after). -/
def wordBoundary (r1 r2 : Option Char) : Bool :=
  isWordChar r1 != isWordChar r2

/-- Threads of the program compiled from `\b word \b`: the program is
`\b ; rune1 word[0] ; … ; rune1 word[k-1] ; \b ; match`, and only rune and match
instructions are ever queued. -/
inductive Thread where
  | instRune1 (j : Nat)
  | instMatch
deriving DecidableEq, Repr

/-- Go `machine.add` entered at the instruction after `word[j-1]`: a rune instruction is
queued; the closing `\b` is followed to `match` when the flag allows it. -/
def add (word : List Char) (j : Nat) (r1 r2 : Option Char) : List Thread :=
  if j < word.length then [Thread.instRune1 j]
  else if wordBoundary r1 r2 then [Thread.instMatch] else []

/-- Go `machine.add` entered at the start instruction (the opening `\b`). -/
def addStart (word : List Char) (r1 r2 : Option Char) : List Thread :=
  if wordBoundary r1 r2 then add word 0 r1 r2 else []

/-- Go `machine.step` in first-match mode: run the queue on rune `c`; a match instruction
sets `matched` and cuts off the lower-priority threads. Returns the next queue and
`matched`. -/
def step (word : List Char) (c r1 : Option Char) : List Thread → List Thread × Bool
  | [] => ([], false)
  | Thread.instMatch :: _ => ([], true)
  | Thread.instRune1 j :: ts =>
    let rest := step word c r1 ts
    ((if c.isSome && word[j]? == c then add word (j + 1) c r1 else []) ++ rest.1, rest.2)

/-- One iteration of the loop of Go `machine.match` at a position whose rune is `r`, with the
rune before it `prev` and the look-ahead rune `r1`: add the start thread, then step. -/
def iter (word : List Char) (q : List Thread) (prev r r1 : Option Char) : List Thread × Bool :=
  step word r r1 (q ++ addStart word prev r)

/-- Control state of `machine.match` between two `ReadRune` calls. -/
inductive MState where
  | init
  | scan (q : List Thread) (prev : Option Char) (r : Char)
  | found
deriving DecidableEq, Repr

/-- The machine receives the rune `x` from `ReadRune`. In `init` it is the first rune; in
`scan` it is the look-ahead `r1`, and the loop iteration for `r` runs. -/
def feed (word : List Char) : MState → Char → MState
  | MState.init, x => MState.scan [] none x
  | MState.scan q prev r, x =>
    let it := iter word q prev (some r) (some x)
    if it.2 then MState.found else MState.scan it.1 (some r) x
  | MState.found, _ => MState.found

/-- The machine receives end of text from `ReadRune`: the remaining iterations run without
further reads and the loop leaves with `m.matched`. -/
def atEOF (word : List Char) : MState → Bool
  | MState.init => (iter word [] none none none).2
  | MState.scan q prev r =>
    let it := iter word q prev (some r) none
    if it.2 then true else (iter word it.1 (some r) none none).2
  | MState.found => true

/-- The machine reads the runes the buffer holds, one `ReadRune` at a time, and stops
reading once it has found a match. -/
def feedList (word : List Char) : MState → List Char → MState
  | st, [] => st
  | st, x :: xs =>
    match feed word st x with
    | MState.found => MState.found
    | st1 => feedList word st1 xs

/-! ## `MatchReader` over a fresh `bufio.Reader` -/

/-- A response body: what the successive `Read` calls on `res.Body` will deliver, each
delivery being what one `Read` into the 4096-byte buffer of a `bufio.Reader` returns; after
the last one `Read` reports end of file. -/
abbrev Body := List (List Char)

/-- The size in bytes of a delivery. -/
def byteSize (delivery : List Char) : Nat :=
  (delivery.map Char.utf8Size).sum

/-- Go `bufio`'s `maxConsecutiveEmptyReads`: the number of `Read` calls one `fill` makes
before it gives up with `io.ErrNoProgress`. -/
def maxConsecutiveEmptyReads : Nat := 100

/-- Run of `wordMatch.MatchReader` on a `bufio.Reader` whose buffer is empty. When the
machine asks for a rune and the buffer is empty, `fill` reads from the body, `left` being
the number of `Read` calls it may still make: a delivery with runes is taken whole and the
machine goes on; an empty delivery is retried, and the last try leaves `io.ErrNoProgress`,
which the machine takes as end of text like the end of file. Returns the verdict and what
is left unread in the body: the reader is dropped with whatever its buffer still holds. -/
def matchReaderFrom (word : List Char) : Nat → MState → Body → Bool × Body
  | _, st, [] => (atEOF word st, [])
  | left, st, [] :: rest =>
    if left ≤ 1 then (atEOF word st, rest)
    else matchReaderFrom word (left - 1) st rest
  | _, st, (x :: xs) :: rest =>
    match feedList word st (x :: xs) with
    | MState.found => (true, rest)
    | st1 => matchReaderFrom word maxConsecutiveEmptyReads st1 rest

/-- Go `wordMatch.MatchReader(bufio.NewReader(res.Body))`. -/
def matchReader (word : List Char) (body : Body) : Bool × Body :=
  matchReaderFrom word maxConsecutiveEmptyReads MState.init body

/-- Go `int` (64 bits): wrap to two's complement. -/
def wrapInt (x : Int) : Int :=
  (x + 2 ^ 63) % 2 ^ 64 - 2 ^ 63

/-- The loop `for wordMatch.MatchReader(bufio.NewReader(res.Body)) { count++ }` of
`fetcher.worker`, with `fuel` bounding the number of condition evaluations. -/
def countLoop (word : List Char) : Nat → Body → Int → Option Int
  | 0, _, _ => none
  | fuel + 1, body, count =>
    match matchReader word body with
    | (true, rest) => countLoop word fuel rest (wrapInt (count + 1))
    | (false, _) => some count

/-- The count a worker reports for a body: `var count int` and the loop; the fuel is one
more than the number of deliveries. -/
def workerCount (word : List Char) (body : Body) : Option Int :=
  countLoop word (body.length + 1) body 0

/-! ## Whole-word occurrences, as the specification words them -/

/-- The rune just before the end of an occurrence of `word` preceded by `prev`. -/
def lastRune (prev : Option Char) (word : List Char) : Option Char :=
  match word.getLast? with
  | some c => some c
  | none => prev

/-- A whole-word occurrence of `word` starts at the head of `text`, `prev` being the rune
before it: boundary, the word, boundary. -/
def matchHere (word : List Char) (prev : Option Char) (text : List Char) : Bool :=
  wordBoundary prev text.head? && word.isPrefixOf text &&
    wordBoundary (lastRune prev word) (text.drop word.length).head?

/-- Some whole-word occurrence of `word` starts somewhere in `text`. -/
def hasMatch (word : List Char) : Option Char → List Char → Bool
  | prev, [] => matchHere word prev []
  | prev, c :: t => matchHere word prev (c :: t) || hasMatch word (some c) t

/-- The text holds a whole-word occurrence of `word`: it splits as `pre ++ word ++ post`
with a word boundary between `pre` and the rest and one between the occurrence and
`post`. -/
def Occurs (word text : List Char) : Prop :=
  ∃ pre post, text = pre ++ word ++ post ∧
    wordBoundary pre.getLast? (word ++ post).head? = true ∧
    wordBoundary (pre ++ word).getLast? post.head? = true

/-- Number of non-overlapping whole-word occurrences of `word` in `text`, scanning left to
right; `skip` runes of the occurrence just counted are still to be passed. -/
def specCountFrom (word : List Char) : Nat → Option Char → List Char → Nat
  | _, _, [] => 0
  | 0, prev, c :: t =>
    if matchHere word prev (c :: t) then 1 + specCountFrom word (word.length - 1) (some c) t
    else specCountFrom word 0 (some c) t
  | skip + 1, _, c :: t => specCountFrom word skip (some c) t

/-- Number of non-overlapping whole-word occurrences of `word` in `text`. -/
def specWordCount (word text : List Char) : Nat :=
  specCountFrom word 0 none text

/-! ## The coordinator and the workers -/

/-- Go `*url.URL` as far as `main` reads it: `u.Scheme` and `u.String()`. -/
structure URL where
  scheme : String
  str : String
deriving DecidableEq, Repr

/-- The collaborators outside the program: `url.Parse` and `(*http.Client).Get`. An error
is its message; a response is the deliveries of its body. -/
structure Env where
  parse : String → Except String URL
  get : String → Except String Body

/-- The command line: `-numpar`, `-find` and the positional arguments `flag.Args()`. -/
structure Config where
  numPar : Int
  word : String
  args : List String

/-- The runes of the target word, as the matcher compiled from it in `init` sees them. -/
def wordRunes (cfg : Config) : List Char :=
  cfg.word.toList

/-- Go `numRequests := len(flag.Args())`, also the capacity of the three channels. -/
def numRequests (cfg : Config) : Nat :=
  cfg.args.length

/-- Go `result`. -/
structure result where
  url : String
  numFind : Int
deriving DecidableEq, Repr

/-- A line written to standard output or to standard error. -/
inductive Line where
  | usage
  | error (err : String)
  | result (r : result)
  | sum (total : Int)
deriving DecidableEq, Repr

/-- Where a worker goroutine stands in `fetcher.worker`. -/
inductive WPc where
  | recv
  | get (url : String)
  | sendErr (err : String)
  | sendOut (r : result)
  | returned
deriving DecidableEq, Repr

/-- A worker goroutine: its control point and the response bodies it has opened whose
deferred `res.Body.Close()` has not run yet (a body is closed by no other call). -/
structure Worker where
  pc : WPc
  deferred : List String
deriving DecidableEq, Repr

/-- Where `main` stands: in the submission loop with the arguments still to handle, in the
loop launching workers, in the drain loop, at the deferred `f.wg.Wait()` after the sum
line, or returned. -/
inductive MainPc where
  | submit (rest : List String)
  | spawn (i : Nat)
  | drain (i : Nat)
  | wait
  | returned
deriving DecidableEq, Repr

/-- The state of the process. -/
structure Sys where
  main : MainPc
  inChan : List String
  outChan : List result
  errChan : List String
  workers : List Worker
  wg : Int
  sum : Int
  stdout : List Line
  stderr : List Line
deriving DecidableEq, Repr

/-- The test `numRequests == 0 || word == ""` at the head of `main`. -/
def fastFail (cfg : Config) : Bool :=
  numRequests cfg == 0 || cfg.word == ""

/-- The state in which `main` reaches the submission loop (channels made, `wg.Add` done),
or in which it has returned from the input check. -/
def initState (cfg : Config) : Sys :=
  if fastFail cfg then
    { main := MainPc.returned, inChan := [], outChan := [], errChan := [], workers := [],
      wg := 0, sum := 0, stdout := [], stderr := [Line.usage] }
  else
    { main := MainPc.submit cfg.args, inChan := [], outChan := [], errChan := [],
      workers := [], wg := (numRequests cfg : Int), sum := 0, stdout := [], stderr := [] }

/-- The body of the submission loop for one argument: the error to queue, or the job. -/
def validate (env : Env) (urlString : String) : Except String String :=
  match env.parse urlString with
  | Except.error err => Except.error err
  | Except.ok u =>
    if u.scheme == "" then Except.error ("Please specify protocol for " ++ urlString)
    else Except.ok u.str

/-- The scheduler's choices: the next statement of `main`, one of the two cases of the
`select` in the drain loop, or the next statement of worker `i`. -/
inductive Action where
  | main
  | selectOut
  | selectErr
  | worker (i : Nat)
deriving DecidableEq, Repr

/-- The next statement of `main` outside the `select`. A send on a full channel, the
`select` and `wg.Wait()` with a positive counter do not proceed. -/
def stepMain (cfg : Config) (env : Env) (s : Sys) : Option Sys :=
  match s.main with
  | MainPc.submit [] => some { s with main := MainPc.spawn 0 }
  | MainPc.submit (urlString :: rest) =>
    match validate env urlString with
    | Except.error err =>
      if s.errChan.length < numRequests cfg then
        some { s with errChan := s.errChan ++ [err], main := MainPc.submit rest }
      else none
    | Except.ok job =>
      if s.inChan.length < numRequests cfg then
        some { s with inChan := s.inChan ++ [job], main := MainPc.submit rest }
      else none
  | MainPc.spawn i =>
    if (i : Int) < cfg.numPar then
      some { s with workers := s.workers ++ [{ pc := WPc.recv, deferred := [] }],
                    main := MainPc.spawn (i + 1) }
    else some { s with main := MainPc.drain 0 }
  | MainPc.drain i =>
    if i < numRequests cfg then none
    else some { s with stdout := s.stdout ++ [Line.sum s.sum], main := MainPc.wait }
  | MainPc.wait => if s.wg = 0 then some { s with main := MainPc.returned } else none
  | MainPc.returned => none

/-- Go `sum += res.numFind` in the drain loop. -/
def addFound (sum : Int) (res : result) : Int :=
  wrapInt (sum + res.numFind)

/-- The case `res := <-f.outChan` of the `select`, with `f.wg.Done()`. -/
def stepSelectOut (cfg : Config) (s : Sys) : Option Sys :=
  match s.main, s.outChan with
  | MainPc.drain i, res :: rest =>
    if i < numRequests cfg then
      some { s with outChan := rest, sum := addFound s.sum res,
                    stdout := s.stdout ++ [Line.result res], wg := s.wg - 1,
                    main := MainPc.drain (i + 1) }
    else none
  | _, _ => none

/-- The case `err := <-f.errChan` of the `select`, with `f.wg.Done()`. -/
def stepSelectErr (cfg : Config) (s : Sys) : Option Sys :=
  match s.main, s.errChan with
  | MainPc.drain i, err :: rest =>
    if i < numRequests cfg then
      some { s with errChan := rest, stderr := s.stderr ++ [Line.error err], wg := s.wg - 1,
                    main := MainPc.drain (i + 1) }
    else none
  | _, _ => none

/-- The next statement of a worker, as its new state and the new channels
(`inChan`, `outChan`, `errChan`). A receive on an empty channel and a send on a full one do
not proceed. On `return` the deferred closes run. -/
def stepWorkerPc (cfg : Config) (env : Env) (s : Sys) (w : Worker) :
    Option (Worker × List String × List result × List String) :=
  match w.pc with
  | WPc.recv =>
    match s.inChan with
    | [] => none
    | url :: rest => some ({ w with pc := WPc.get url }, rest, s.outChan, s.errChan)
  | WPc.get url =>
    match env.get url with
    | Except.error err => some ({ w with pc := WPc.sendErr err }, s.inChan, s.outChan, s.errChan)
    | Except.ok body =>
      match workerCount (wordRunes cfg) body with
      | some count =>
        some ({ pc := WPc.sendOut { url := url, numFind := count },
                deferred := url :: w.deferred }, s.inChan, s.outChan, s.errChan)
      | none => none
  | WPc.sendErr err =>
    if s.errChan.length < numRequests cfg then
      some ({ pc := WPc.returned, deferred := [] }, s.inChan, s.outChan, s.errChan ++ [err])
    else none
  | WPc.sendOut res =>
    if s.outChan.length < numRequests cfg then
      some ({ w with pc := WPc.recv }, s.inChan, s.outChan ++ [res], s.errChan)
    else none
  | WPc.returned => none

/-- The next statement of worker `i`; the goroutines end when `main` has returned. -/
def stepWorker (cfg : Config) (env : Env) (s : Sys) (i : Nat) : Option Sys :=
  if s.main = MainPc.returned then none
  else
    match s.workers[i]? with
    | none => none
    | some w =>
      match stepWorkerPc cfg env s w with
      | none => none
      | some (w1, inC, outC, errC) =>
        some { s with workers := s.workers.set i w1, inChan := inC, outChan := outC,
                      errChan := errC }

/-- One scheduled step of the process; `none` when the chosen statement cannot proceed. -/
def sysStep (cfg : Config) (env : Env) (s : Sys) : Action → Option Sys
  | Action.main => stepMain cfg env s
  | Action.selectOut => stepSelectOut cfg s
  | Action.selectErr => stepSelectErr cfg s
  | Action.worker i => stepWorker cfg env s i

/-- A schedule run from a state. -/
def run (cfg : Config) (env : Env) : Sys → List Action → Option Sys
  | s, [] => some s
  | s, a :: rest =>
    match sysStep cfg env s a with
    | none => none
    | some s1 => run cfg env s1 rest

/-- The states the process can be in. -/
def Reachable (cfg : Config) (env : Env) (s : Sys) : Prop :=
  ∃ acts, run cfg env (initState cfg) acts = some s

/-- No statement of any goroutine can proceed. -/
def Stuck (cfg : Config) (env : Env) (s : Sys) : Prop :=
  ∀ a, sysStep cfg env s a = none

/-- A line that reports a drained outcome: a result on standard output, an error on
standard error. -/
def Line.isOutcome : Line → Bool
  | Line.result _ => true
  | Line.error _ => true
  | _ => false

/-- The number of outcomes `main` has drained, each of which it has printed. -/
def drainedCount (s : Sys) : Nat :=
  (s.stdout.filter Line.isOutcome).length + (s.stderr.filter Line.isOutcome).length

/-- The index of the drain loop at a control point of `main` past the input check: the
number of iterations done. -/
def drained (cfg : Config) : MainPc → Nat
  | MainPc.submit _ => 0
  | MainPc.spawn _ => 0
  | MainPc.drain i => i
  | MainPc.wait => numRequests cfg
  | MainPc.returned => numRequests cfg

/-- The arguments `main` has still to handle in the submission loop. -/
def pending : MainPc → List String
  | MainPc.submit rest => rest
  | _ => []

/-- A worker holds a job: it has received it and not yet sent its outcome. -/
def busy (w : Worker) : Nat :=
  match w.pc with
  | WPc.get _ => 1
  | WPc.sendErr _ => 1
  | WPc.sendOut _ => 1
  | _ => 0

/-- The number of jobs in flight. -/
def inflight (ws : List Worker) : Nat :=
  (ws.map busy).sum

/-- The fetch of a job fails. -/
def isFail (env : Env) (url : String) : Bool :=
  match env.get url with
  | Except.error _ => true
  | Except.ok _ => false

/-- The number of jobs of a list whose fetch fails. -/
def failCount (env : Env) (jobs : List String) : Nat :=
  (jobs.filter (isFail env)).length

/-- The job an argument is submitted as, if it is. -/
def jobOf (env : Env) (urlString : String) : Option String :=
  match validate env urlString with
  | Except.ok job => some job
  | Except.error _ => none

/-- The error an argument is answered with at submission, if it is. -/
def errOf (env : Env) (urlString : String) : Option String :=
  match validate env urlString with
  | Except.ok _ => none
  | Except.error err => some err

/-- The jobs the arguments are submitted as, in order. -/
def jobsOf (env : Env) (args : List String) : List String :=
  args.filterMap (jobOf env)

/-- The errors queued at submission, in order. -/
def errsOf (env : Env) (args : List String) : List String :=
  args.filterMap (errOf env)

/-- A worker has returned or is bound to: it holds a job whose fetch fails or has failed. -/
def doomed (env : Env) (w : Worker) : Nat :=
  match w.pc with
  | WPc.returned => 1
  | WPc.sendErr _ => 1
  | WPc.get url => if isFail env url then 1 else 0
  | _ => 0

/-- The sum line, once `main` has printed it. -/
def sumLine (s : Sys) : List Line :=
  match s.main with
  | MainPc.wait => [Line.sum s.sum]
  | MainPc.returned => [Line.sum s.sum]
  | _ => []

/-- The size of the pool at each stage of `main`. -/
def PoolOk (cfg : Config) (s : Sys) : Prop :=
  match s.main with
  | MainPc.submit _ => s.workers = []
  | MainPc.spawn i => s.workers.length = i
  | _ => cfg.numPar ≤ (s.workers.length : Int)

/-- The invariant of the process past the input check. -/
structure Inv (cfg : Config) (env : Env) (s : Sys) : Prop where
  pend_le : (pending s.main).length ≤ numRequests cfg
  drain_le : drained cfg s.main ≤ numRequests cfg
  account : s.errChan.length + s.outChan.length + s.inChan.length + inflight s.workers +
      drained cfg s.main + (pending s.main).length = numRequests cfg
  wgCount : s.wg = (numRequests cfg : Int) - (drained cfg s.main : Int)
  submitting : ∀ rest, s.main = MainPc.submit rest →
      ∃ done, cfg.args = done ++ rest ∧ s.errChan = errsOf env done ∧
        s.inChan = jobsOf env done ∧ s.outChan = []
  pool : PoolOk cfg s
  fails : (s.workers.map (doomed env)).sum + failCount env s.inChan +
      failCount env (jobsOf env (pending s.main)) = failCount env (jobsOf env cfg.args)
  output : ∃ (rs : List result) (es : List String), s.stdout = rs.map Line.result ++ sumLine s ∧ s.stderr = es.map Line.error ∧
      rs.length + es.length = drained cfg s.main ∧
      s.sum = wrapInt ((rs.map result.numFind).sum)

/-- An outcome as the drain loop receives it: a result from `outChan` or an error from
`errChan`. -/
inductive Outcome where
  | success (res : result)
  | failure (err : String)
deriving DecidableEq, Repr

/-- The drain loop of `main` as far as `sum` goes, run on the outcomes its `select`
receives in order. -/
def drainLoop : Int → List Outcome → Int
  | sum, [] => sum
  | sum, Outcome.success res :: rest => drainLoop (addFound sum res) rest
  | sum, Outcome.failure _ :: rest => drainLoop sum rest

/-- The `numFind` of a success outcome. -/
def found? : Outcome → Option Int
  | Outcome.success res => some res.numFind
  | Outcome.failure _ => none

/-- The sum of the `numFind` fields of the success outcomes of a sequence. -/
def successSum (os : List Outcome) : Int :=
  (os.filterMap found?).sum

/-- Rank of `main`: a bound on the statements it has still to run, an argument counting
four. -/
def mainRank (cfg : Config) : MainPc → Nat
  | MainPc.submit rest => 4 * rest.length + (cfg.numPar.toNat + numRequests cfg + 5)
  | MainPc.spawn i => (cfg.numPar.toNat - i) + numRequests cfg + 4
  | MainPc.drain i => (numRequests cfg - i) + 2
  | MainPc.wait => 1
  | MainPc.returned => 0

/-- Rank of a worker: the statements left before its job's outcome is sent. -/
def workRank (w : Worker) : Nat :=
  match w.pc with
  | WPc.get _ => 2
  | WPc.sendErr _ => 1
  | WPc.sendOut _ => 1
  | _ => 0

/-- A measure that every step of the process decreases. -/
def rank (cfg : Config) (s : Sys) : Nat :=
  mainRank cfg s.main + 3 * s.inChan.length + (s.workers.map workRank).sum

/-- On every schedule the process comes to a state satisfying `P`: it is in one, or some
statement can proceed and after each one that can the same holds. -/
inductive Inevitable (cfg : Config) (env : Env) (P : Sys → Prop) : Sys → Prop where
  | now (s : Sys) : P s → Inevitable cfg env P s
  | later (s : Sys) : (∃ a s1, sysStep cfg env s a = some s1) →
      (∀ a s1, sysStep cfg env s a = some s1 → Inevitable cfg env P s1) →
      Inevitable cfg env P s

/-- The state in which `main` has returned after draining every outcome and printing the
sum of the results it printed. -/
def Finished (cfg : Config) (s : Sys) : Prop :=
  s.main = MainPc.returned ∧ drainedCount s = numRequests cfg ∧
    ∃ (rs : List result) (es : List String), s.stdout = rs.map Line.result ++ [Line.sum s.sum] ∧
      s.stderr = es.map Line.error ∧ rs.length + es.length = numRequests cfg ∧
      s.sum = wrapInt ((rs.map result.numFind).sum)

/-! ## Concrete inputs -/

/-- A sample environment: `":bad"` does not parse, `"example.com"` parses without a scheme,
the fetch of `"http://down"` fails, and every other fetch answers with one delivery. -/
def demoEnv : Env :=
  { parse := fun a =>
      if a == ":bad" then Except.error "missing protocol scheme"
      else if a == "example.com" then Except.ok { scheme := "", str := a }
      else Except.ok { scheme := "http", str := a },
    get := fun u =>
      if u == "http://down" then Except.error "timeout"
      else Except.ok ["cats concatenate cat cat.".toList] }

/-- One worker, two jobs, the first of which cannot be fetched. -/
def cfgStall : Config :=
  { numPar := 1, word := "cat", args := ["http://down", "http://b"] }

/-- One worker and one job. -/
def cfgOne : Config :=
  { numPar := 1, word := "cat", args := ["http://a"] }

/-- Two workers and four arguments: a job, a scheme-less URL, a job whose fetch fails and an
argument that does not parse. -/
def cfgMixed : Config :=
  { numPar := 2, word := "cat", args := ["http://a", "example.com", "http://down", ":bad"] }

/-- No target word. -/
def cfgNoWord : Config :=
  { numPar := 4, word := "", args := ["http://a"] }

/-- The state of `cfgMixed` after the first two arguments have been handled. -/
def midSubmission : Sys :=
  { main := MainPc.submit ["http://down", ":bad"], inChan := ["http://a"], outChan := [],
    errChan := ["Please specify protocol for example.com"], workers := [], wg := 4, sum := 0,
    stdout := [], stderr := [] }

/-- The state of `cfgMixed` in which both workers are about to send their outcome. -/
def bothSending : Sys :=
  { main := MainPc.drain 0, inChan := [], outChan := [],
    errChan := ["Please specify protocol for example.com", "missing protocol scheme"],
    workers := [{ pc := WPc.sendOut { url := "http://a", numFind := 1 },
                  deferred := ["http://a"] },
                { pc := WPc.sendErr "timeout", deferred := [] }],
    wg := 4, sum := 0, stdout := [], stderr := [] }

/-- Three workers and two jobs, neither of which can be fetched. -/
def cfgThree : Config :=
  { numPar := 3, word := "cat", args := ["http://down", "http://down"] }

/-- The state of `cfgThree` in which `main` is about to launch the third worker and the two
launched ones have returned. -/
def twoReturned : Sys :=
  { main := MainPc.spawn 2, inChan := [], outChan := [], errChan := ["timeout", "timeout"],
    workers := [{ pc := WPc.returned, deferred := [] }, { pc := WPc.returned, deferred := [] }],
    wg := 2, sum := 0, stdout := [], stderr := [] }

/-- The state returned from the input check. -/
def usageState : Sys :=
  { main := MainPc.returned, inChan := [], outChan := [], errChan := [], workers := [],
    wg := 0, sum := 0, stdout := [], stderr := [Line.usage] }

/-- Acceptance of a thread: started on the remaining text (current rune first), the thread
reaches the match instruction. -/
def thrAcc (word : List Char) : Thread → List Char → Bool
  | Thread.instMatch, _ => true
  | Thread.instRune1 _, [] => false
  | Thread.instRune1 j, c :: t =>
    word[j]? == some c &&
      (if j + 1 < word.length then thrAcc word (Thread.instRune1 (j + 1)) t
       else wordBoundary (some c) t.head?)

/-- Acceptance of a machine state: fed the remaining runes `text` and then end of text, the
machine reports a match. Stated through occurrences, not through the machine. -/
def accepts (word : List Char) : MState → List Char → Bool
  | MState.init, text => hasMatch word none text
  | MState.found, _ => true
  | MState.scan q prev r, text =>
    q.any (fun t => thrAcc word t (r :: text)) || hasMatch word prev (r :: text)

/-! ## Theorems: the matcher -/

theorem thrAcc_rune (word : List Char) (text : List Char) :
    ∀ j, j < word.length →
      thrAcc word (Thread.instRune1 j) text =
        ((word.drop j).isPrefixOf text &&
          wordBoundary word.getLast? (text.drop (word.length - j)).head?) := by
  induction text with
  | nil =>
    intro j hj
    have : word.drop j ≠ [] := by
      intro h
      have := congrArg List.length h
      simp at this
      omega
    cases hd : word.drop j with
    | nil => exact absurd hd this
    | cons a l => simp [thrAcc, List.isPrefixOf]
  | cons c t ih =>
    intro j hj
    have hdrop : word.drop j = word[j] :: word.drop (j + 1) :=
      List.drop_eq_getElem_cons hj
    have hget : word[j]? = some word[j] := by simp [hj]
    rw [hdrop]
    by_cases hj1 : j + 1 < word.length
    · have hsub : word.length - j = (word.length - (j + 1)) + 1 := by omega
      simp only [thrAcc, hj1, if_true, ih (j + 1) hj1, hget, List.isPrefixOf, hsub,
        List.drop_succ_cons]
      by_cases hc : word[j] = c <;> simp [hc, Bool.and_assoc]
    · have hlen : word.length = j + 1 := by omega
      have hd1 : word.drop (j + 1) = [] := by simp [hlen]
      have hl : word.getLast? = some word[j] := by
        rw [List.getLast?_eq_getElem?]
        simp [hlen]
      have hsub : word.length - j = 1 := by omega
      simp only [thrAcc, hj1, if_false, hget, hd1, List.isPrefixOf, hsub, hl]
      by_cases hc : word[j] = c
      · simp [hc]
      · have hb : (word[j] == c) = false := by simpa using hc
        simp [hb]

theorem thrAcc_nil (word : List Char) (t : Thread) :
    thrAcc word t [] = decide (t = Thread.instMatch) := by
  cases t <;> simp [thrAcc]

theorem add_any_thrAcc (word : List Char) (j : Nat) (c : Char) (rest : List Char) :
    (add word (j + 1) (some c) rest.head?).any (fun t => thrAcc word t rest) =
      (if j + 1 < word.length then thrAcc word (Thread.instRune1 (j + 1)) rest
       else wordBoundary (some c) rest.head?) := by
  unfold add
  by_cases h : j + 1 < word.length
  · simp [h]
  · by_cases hb : wordBoundary (some c) rest.head? = true
    · simp [h, hb, thrAcc]
    · simp [h, hb]

theorem step_spec (word : List Char) (r : Char) (rest : List Char) (q : List Thread) :
    ((step word (some r) rest.head? q).2 ||
        (step word (some r) rest.head? q).1.any (fun t => thrAcc word t rest)) =
      q.any (fun t => thrAcc word t (r :: rest)) := by
  induction q with
  | nil => simp [step]
  | cons t ts ih =>
    cases t with
    | instMatch => simp [step, thrAcc]
    | instRune1 j =>
      simp only [step, List.any_append, List.any_cons, thrAcc]
      rw [← ih]
      by_cases h : word[j]? = some r
      · simp only [h, Option.isSome_some, beq_self_eq_true, Bool.and_self, if_true,
          add_any_thrAcc, Bool.true_and]
        generalize (step word (some r) rest.head? ts).2 = a
        generalize (step word (some r) rest.head? ts).1.any _ = b
        generalize (if j + 1 < word.length then thrAcc word (Thread.instRune1 (j + 1)) rest
          else wordBoundary (some r) rest.head?) = d
        cases a <;> cases b <;> cases d <;> rfl
      · have hb : (word[j]? == some r) = false := by simpa using h
        simp [hb]

theorem step_eof (word : List Char) (q : List Thread) :
    (step word none none q).2 = q.any (fun t => thrAcc word t []) := by
  induction q with
  | nil => simp [step]
  | cons t ts ih =>
    cases t with
    | instMatch => simp [step, thrAcc]
    | instRune1 j => simp [step, thrAcc, ih]

theorem lastRune_of_pos (word : List Char) (prev : Option Char) (h : 0 < word.length) :
    lastRune prev word = word.getLast? := by
  unfold lastRune
  cases hl : word.getLast? with
  | none =>
    rw [List.getLast?_eq_none_iff] at hl
    simp [hl] at h
  | some c => rfl

theorem addStart_spec (word : List Char) (prev : Option Char) (r : Char) (rest : List Char) :
    (addStart word prev (some r)).any (fun t => thrAcc word t (r :: rest)) =
      matchHere word prev (r :: rest) := by
  unfold addStart matchHere
  by_cases hb : wordBoundary prev (some r) = true
  · by_cases hk : 0 < word.length
    · have h1 := thrAcc_rune word (r :: rest) 0 hk
      simp only [List.drop_zero, Nat.sub_zero] at h1
      simp [hb, add, hk, h1, lastRune_of_pos word prev hk]
    · have hw : word = [] := by
        cases word with
        | nil => rfl
        | cons a l => simp at hk
      subst hw
      simp [hb, add, thrAcc, lastRune]
  · simp [hb]

theorem addStart_eof (word : List Char) (prev : Option Char) :
    (addStart word prev none).any (fun t => thrAcc word t []) = matchHere word prev [] := by
  unfold addStart matchHere
  by_cases hb : wordBoundary prev none = true
  · cases word with
    | nil => simp [hb, add, thrAcc, lastRune]
    | cons a l => simp [hb, add, thrAcc, List.isPrefixOf]
  · simp [hb]

theorem accepts_nil (word : List Char) (st : MState) : atEOF word st = accepts word st [] := by
  cases st with
  | init =>
    simp [atEOF, accepts, iter, hasMatch, step_eof, addStart_eof]
  | found => rfl
  | scan q prev r =>
    have h1 := step_spec word r [] (q ++ addStart word prev (some r))
    simp only [List.head?_nil, List.any_append, addStart_spec] at h1
    simp only [atEOF, accepts, iter, hasMatch, step_eof, List.any_append, addStart_eof]
    rw [← Bool.or_assoc, ← h1]
    generalize (step word (some r) none (q ++ addStart word prev (some r))).2 = a
    generalize (step word (some r) none (q ++ addStart word prev (some r))).1.any _ = b
    cases a <;> simp

theorem accepts_feed (word : List Char) (st : MState) (x : Char) (text : List Char) :
    accepts word (feed word st x) text = accepts word st (x :: text) := by
  cases st with
  | init => simp [feed, accepts]
  | found => rfl
  | scan q prev r =>
    have h1 := step_spec word r (x :: text) (q ++ addStart word prev (some r))
    simp only [List.head?_cons, List.any_append, addStart_spec] at h1
    have h2 : hasMatch word prev (r :: x :: text) =
        (matchHere word prev (r :: x :: text) || hasMatch word (some r) (x :: text)) := rfl
    simp only [feed, iter]
    rw [accepts, h2, ← Bool.or_assoc, ← h1]
    cases hm : (step word (some r) (some x) (q ++ addStart word prev (some r))).2
    · simp [accepts]
    · simp [accepts]

theorem accepts_foldl (word : List Char) (text : List Char) :
    ∀ st, atEOF word (text.foldl (feed word) st) = accepts word st text := by
  induction text with
  | nil => intro st; exact accepts_nil word st
  | cons x xs ih => intro st; rw [List.foldl_cons, ih, accepts_feed]

theorem lastRune_cons (prev : Option Char) (c : Char) (l : List Char) :
    lastRune prev (c :: l) = lastRune (some c) l := by
  cases l with
  | nil => rfl
  | cons d l1 =>
    simp only [lastRune, List.getLast?_cons_cons]
    rw [List.getLast?_eq_getLast _ (List.cons_ne_nil d l1)]

theorem lastRune_none (l : List Char) : lastRune none l = l.getLast? := by
  unfold lastRune
  cases l.getLast? <;> rfl

theorem matchHere_iff (word : List Char) (prev : Option Char) (text : List Char) :
    matchHere word prev text = true ↔
      ∃ post, text = word ++ post ∧ wordBoundary prev (word ++ post).head? = true ∧
        wordBoundary (lastRune prev word) post.head? = true := by
  unfold matchHere
  constructor
  · intro h
    simp only [Bool.and_eq_true, List.isPrefixOf_iff_prefix] at h
    obtain ⟨⟨h1, post, hp⟩, h3⟩ := h
    subst hp
    refine ⟨post, rfl, h1, ?_⟩
    simpa using h3
  · rintro ⟨post, rfl, h1, h2⟩
    simp only [Bool.and_eq_true, List.isPrefixOf_iff_prefix]
    refine ⟨⟨h1, post, rfl⟩, ?_⟩
    simpa using h2

theorem hasMatch_iff_aux (word : List Char) (text : List Char) :
    ∀ prev, hasMatch word prev text = true ↔
      ∃ pre post, text = pre ++ word ++ post ∧
        wordBoundary (lastRune prev pre) (word ++ post).head? = true ∧
        wordBoundary (lastRune prev (pre ++ word)) post.head? = true := by
  induction text with
  | nil =>
    intro prev
    rw [hasMatch, matchHere_iff]
    constructor
    · rintro ⟨post, h, h1, h2⟩
      exact ⟨[], post, by simpa using h, by simpa [lastRune] using h1, by simpa using h2⟩
    · rintro ⟨pre, post, h, h1, h2⟩
      have hpre : pre = [] := by
        cases pre with
        | nil => rfl
        | cons a l => simp at h
      subst hpre
      exact ⟨post, by simpa using h, by simpa [lastRune] using h1, by simpa using h2⟩
  | cons c t ih =>
    intro prev
    rw [hasMatch, Bool.or_eq_true, matchHere_iff, ih (some c)]
    constructor
    · rintro (⟨post, h, h1, h2⟩ | ⟨pre, post, h, h1, h2⟩)
      · exact ⟨[], post, by simpa using h, by simpa [lastRune] using h1, by simpa using h2⟩
      · refine ⟨c :: pre, post, by simp [h], ?_, ?_⟩
        · rw [lastRune_cons]; exact h1
        · rw [List.cons_append, lastRune_cons]; exact h2
    · rintro ⟨pre, post, h, h1, h2⟩
      cases pre with
      | nil =>
        exact Or.inl ⟨post, by simpa using h, by simpa [lastRune] using h1, by simpa using h2⟩
      | cons a l =>
        simp only [List.cons_append, List.cons.injEq] at h
        obtain ⟨rfl, ht⟩ := h
        refine Or.inr ⟨l, post, ht, ?_, ?_⟩
        · rw [lastRune_cons] at h1; exact h1
        · rw [List.cons_append, lastRune_cons] at h2; exact h2

theorem hasMatch_iff_occurs (word text : List Char) :
    hasMatch word none text = true ↔ Occurs word text := by
  rw [hasMatch_iff_aux]
  unfold Occurs
  simp only [lastRune_none]

theorem foldl_feed_found (word : List Char) (l : List Char) :
    l.foldl (feed word) MState.found = MState.found := by
  induction l with
  | nil => rfl
  | cons x xs ih => simpa [feed] using ih

theorem feedList_eq_foldl (word : List Char) (l : List Char) :
    ∀ st, feedList word st l = l.foldl (feed word) st := by
  induction l with
  | nil => intro st; rfl
  | cons x xs ih =>
    intro st
    simp only [feedList, List.foldl_cons]
    cases h : feed word st x with
    | found => simp [foldl_feed_found]
    | init => simp [ih]
    | scan q prev r => simp [ih]

theorem matchReaderFrom_fst (word : List Char) (body : Body) (hne : ∀ d ∈ body, d ≠ []) :
    ∀ left st, (matchReaderFrom word left st body).1 =
      atEOF word (body.flatten.foldl (feed word) st) := by
  induction body with
  | nil => intro left st; rfl
  | cons d ds ih =>
    intro left st
    have hds : ∀ e ∈ ds, e ≠ [] := fun e he => hne e (List.mem_cons_of_mem d he)
    cases d with
    | nil => exact absurd rfl (hne [] (List.mem_cons_self _ _))
    | cons x xs =>
      simp only [matchReaderFrom, List.flatten_cons, List.foldl_append]
      have hf := feedList_eq_foldl word (x :: xs) st
      cases h : feedList word st (x :: xs) with
      | found => rw [← hf, h]; simp [foldl_feed_found, atEOF]
      | init => rw [← hf, h]; simp [ih hds]
      | scan q prev r => rw [← hf, h]; simp [ih hds]

theorem matchReader_fst (word : List Char) (body : Body) (hne : ∀ d ∈ body, d ≠ []) :
    (matchReader word body).1 = hasMatch word none body.flatten := by
  rw [matchReader, matchReaderFrom_fst word body hne, accepts_foldl]
  rfl

theorem matchReaderFrom_snd_length (word : List Char) (body : Body) :
    ∀ left st, (matchReaderFrom word left st body).2.length ≤ body.length := by
  induction body with
  | nil => intro left st; simp [matchReaderFrom]
  | cons d ds ih =>
    intro left st
    cases d with
    | nil =>
      simp only [matchReaderFrom, List.length_cons]
      by_cases hl : left ≤ 1
      · simp [hl]
      · simp only [hl, if_false]
        have := ih (left - 1) st
        omega
    | cons x xs =>
      simp only [matchReaderFrom, List.length_cons]
      cases h : feedList word st (x :: xs) with
      | found => simp
      | init =>
        have := ih maxConsecutiveEmptyReads MState.init
        simp only []; omega
      | scan q prev r =>
        have := ih maxConsecutiveEmptyReads (MState.scan q prev r)
        simp only []; omega

theorem matchReaderFrom_cons_snd_length (word : List Char) (d : List Char) (ds : Body) :
    ∀ left st, (matchReaderFrom word left st (d :: ds)).2.length ≤ ds.length := by
  intro left st
  cases d with
  | nil =>
    simp only [matchReaderFrom]
    by_cases hl : left ≤ 1
    · simp [hl]
    · simp only [hl, if_false]
      exact matchReaderFrom_snd_length word ds (left - 1) st
  | cons x xs =>
    simp only [matchReaderFrom]
    cases h : feedList word st (x :: xs) with
    | found => simp
    | init => exact matchReaderFrom_snd_length word ds maxConsecutiveEmptyReads MState.init
    | scan q prev r =>
      exact matchReaderFrom_snd_length word ds maxConsecutiveEmptyReads (MState.scan q prev r)

theorem atEOF_init (word : List Char) : atEOF word MState.init = false := by
  rw [accepts_nil]
  simp [accepts, hasMatch, matchHere, wordBoundary]

theorem matchReader_true_lt (word : List Char) (body rest : Body)
    (h : matchReader word body = (true, rest)) : rest.length < body.length := by
  cases body with
  | nil =>
    have h1 : (matchReader word []).1 = true := by rw [h]
    simp [matchReader, matchReaderFrom, atEOF_init] at h1
  | cons d ds =>
    have h2 : rest = (matchReader word (d :: ds)).2 := by rw [h]
    have := matchReaderFrom_cons_snd_length word d ds maxConsecutiveEmptyReads MState.init
    rw [h2, matchReader, List.length_cons]
    omega

theorem countLoop_total (word : List Char) :
    ∀ (fuel : Nat) (body : Body) (count : Int), body.length < fuel →
      ∃ n, countLoop word fuel body count = some n := by
  intro fuel
  induction fuel with
  | zero => intro body count h; omega
  | succ k ih =>
    intro body count h
    rw [countLoop]
    rcases hm : matchReader word body with ⟨b, rest⟩
    cases b with
    | false => exact ⟨count, rfl⟩
    | true =>
      have := matchReader_true_lt word body rest hm
      exact ih rest _ (by omega)

theorem workerCount_total (word : List Char) (body : Body) :
    ∃ n, workerCount word body = some n :=
  countLoop_total word _ body 0 (Nat.lt_succ_self _)

theorem matchReader_single (word d : List Char) :
    matchReader word [d] = (hasMatch word none d, []) := by
  cases d with
  | nil =>
    have h : hasMatch word none [] = false := by
      simp [hasMatch, matchHere, wordBoundary]
    simp [matchReader, matchReaderFrom, maxConsecutiveEmptyReads, atEOF_init, h]
  | cons x xs =>
    have h1 := matchReader_fst word [x :: xs] (by simp)
    have h2 : (matchReader word [x :: xs]).2 = [] := by
      simp only [matchReader, matchReaderFrom]
      cases feedList word MState.init (x :: xs) <;> rfl
    simp only [List.flatten_cons, List.flatten_nil, List.append_nil] at h1
    exact Prod.ext h1 h2

theorem matchReader_nil (word : List Char) : matchReader word [] = (false, []) := by
  simp [matchReader, matchReaderFrom, atEOF_init]

theorem workerCount_single (word d : List Char) :
    workerCount word [d] = some (if hasMatch word none d then 1 else 0) := by
  simp only [workerCount, List.length_cons, List.length_nil, countLoop, matchReader_single]
  cases hasMatch word none d
  · rfl
  · simp only [matchReader_nil]
    rfl

/-! ## Theorems: the process -/

theorem sum_map_set (f : Worker → Nat) :
    ∀ (ws : List Worker) (i : Nat) (w w1 : Worker), ws[i]? = some w →
      ((ws.set i w1).map f).sum + f w = (ws.map f).sum + f w1 := by
  intro ws
  induction ws with
  | nil => intro i w w1 h; simp at h
  | cons a l ih =>
    intro i w w1 h
    cases i with
    | zero =>
      simp only [List.getElem?_cons_zero, Option.some.injEq] at h
      subst h
      simp only [List.set_cons_zero, List.map_cons, List.sum_cons]
      omega
    | succ k =>
      simp only [List.getElem?_cons_succ] at h
      have := ih k w w1 h
      simp only [List.set_cons_succ, List.map_cons, List.sum_cons]
      omega

theorem wrapInt_add (a b : Int) : wrapInt (wrapInt a + b) = wrapInt (a + b) := by
  unfold wrapInt
  omega

theorem wrapInt_zero : wrapInt 0 = 0 := by
  decide

theorem wrapInt_of_range (a : Int) (h1 : -(2 ^ 63) ≤ a) (h2 : a < 2 ^ 63) : wrapInt a = a := by
  unfold wrapInt
  omega

theorem stepWorker_inv (cfg : Config) (env : Env) (s s1 : Sys) (i : Nat)
    (h : stepWorker cfg env s i = some s1) :
    s.main ≠ MainPc.returned ∧ ∃ w w1 inC outC errC, s.workers[i]? = some w ∧
      stepWorkerPc cfg env s w = some (w1, inC, outC, errC) ∧
      s1 = { s with workers := s.workers.set i w1, inChan := inC, outChan := outC,
                    errChan := errC } := by
  unfold stepWorker at h
  by_cases hm : s.main = MainPc.returned
  · simp [hm] at h
  · refine ⟨hm, ?_⟩
    simp only [hm, if_false] at h
    cases hw : s.workers[i]? with
    | none => simp [hw] at h
    | some w =>
      simp only [hw] at h
      cases hp : stepWorkerPc cfg env s w with
      | none => simp [hp] at h
      | some r =>
        obtain ⟨w1, inC, outC, errC⟩ := r
        simp only [hp, Option.some.injEq] at h
        exact ⟨w, w1, inC, outC, errC, rfl, hp, h.symm⟩

theorem stepWorkerPc_inv (cfg : Config) (env : Env) (s : Sys) (w w1 : Worker)
    (inC : List String) (outC : List result) (errC : List String)
    (h : stepWorkerPc cfg env s w = some (w1, inC, outC, errC)) :
    (∃ url rest, w.pc = WPc.recv ∧ s.inChan = url :: rest ∧ w1 = { w with pc := WPc.get url } ∧
        inC = rest ∧ outC = s.outChan ∧ errC = s.errChan) ∨
    (∃ url err, w.pc = WPc.get url ∧ env.get url = Except.error err ∧
        w1 = { w with pc := WPc.sendErr err } ∧
        inC = s.inChan ∧ outC = s.outChan ∧ errC = s.errChan) ∨
    (∃ url body count, w.pc = WPc.get url ∧ env.get url = Except.ok body ∧
        workerCount (wordRunes cfg) body = some count ∧
        w1 = { pc := WPc.sendOut { url := url, numFind := count },
               deferred := url :: w.deferred } ∧
        inC = s.inChan ∧ outC = s.outChan ∧ errC = s.errChan) ∨
    (∃ err, w.pc = WPc.sendErr err ∧ s.errChan.length < numRequests cfg ∧
        w1 = { pc := WPc.returned, deferred := [] } ∧
        inC = s.inChan ∧ outC = s.outChan ∧ errC = s.errChan ++ [err]) ∨
    (∃ res, w.pc = WPc.sendOut res ∧ s.outChan.length < numRequests cfg ∧
        w1 = { w with pc := WPc.recv } ∧
        inC = s.inChan ∧ outC = s.outChan ++ [res] ∧ errC = s.errChan) := by
  unfold stepWorkerPc at h
  cases hpc : w.pc with
  | recv =>
    simp only [hpc] at h
    cases hin : s.inChan with
    | nil => simp [hin] at h
    | cons url rest =>
      simp only [hin, Option.some.injEq, Prod.mk.injEq] at h
      obtain ⟨h1, h2, h3, h4⟩ := h
      exact Or.inl ⟨url, rest, rfl, rfl, h1.symm, h2.symm, h3.symm, h4.symm⟩
  | get url =>
    simp only [hpc] at h
    cases hg : env.get url with
    | error err =>
      simp only [hg, Option.some.injEq, Prod.mk.injEq] at h
      obtain ⟨h1, h2, h3, h4⟩ := h
      exact Or.inr (Or.inl ⟨url, err, rfl, hg, h1.symm, h2.symm, h3.symm, h4.symm⟩)
    | ok body =>
      simp only [hg] at h
      cases hc : workerCount (wordRunes cfg) body with
      | none => simp [hc] at h
      | some count =>
        simp only [hc, Option.some.injEq, Prod.mk.injEq] at h
        obtain ⟨h1, h2, h3, h4⟩ := h
        exact Or.inr (Or.inr (Or.inl
          ⟨url, body, count, rfl, hg, hc, h1.symm, h2.symm, h3.symm, h4.symm⟩))
  | sendErr err =>
    simp only [hpc] at h
    by_cases hl : s.errChan.length < numRequests cfg
    · simp only [hl, if_true, Option.some.injEq, Prod.mk.injEq] at h
      obtain ⟨h1, h2, h3, h4⟩ := h
      exact Or.inr (Or.inr (Or.inr (Or.inl
        ⟨err, rfl, hl, h1.symm, h2.symm, h3.symm, h4.symm⟩)))
    · simp [hl] at h
  | sendOut res =>
    simp only [hpc] at h
    by_cases hl : s.outChan.length < numRequests cfg
    · simp only [hl, if_true, Option.some.injEq, Prod.mk.injEq] at h
      obtain ⟨h1, h2, h3, h4⟩ := h
      exact Or.inr (Or.inr (Or.inr (Or.inr
        ⟨res, rfl, hl, h1.symm, h2.symm, h3.symm, h4.symm⟩)))
    · simp [hl] at h
  | returned => simp [hpc] at h

theorem failCount_cons (env : Env) (url : String) (rest : List String) :
    failCount env (url :: rest) = (if isFail env url then 1 else 0) + failCount env rest := by
  unfold failCount
  by_cases h : isFail env url = true
  · simp [h, List.filter_cons]; omega
  · simp [h, List.filter_cons]

theorem failCount_append (env : Env) (l1 l2 : List String) :
    failCount env (l1 ++ l2) = failCount env l1 + failCount env l2 := by
  simp [failCount]

theorem inv_worker (cfg : Config) (env : Env) (s s1 : Sys) (i : Nat)
    (hI : Inv cfg env s) (h : stepWorker cfg env s i = some s1) : Inv cfg env s1 := by
  obtain ⟨_, w, w1, inC, outC, errC, hw, hp, rfl⟩ := stepWorker_inv cfg env s s1 i h
  have hb := sum_map_set busy s.workers i w w1 hw
  have hd := sum_map_set (doomed env) s.workers i w w1 hw
  have hacc := hI.account
  have hfl := hI.fails
  unfold inflight at hacc
  have hnotsub : ∀ rest, s.main ≠ MainPc.submit rest := by
    intro rest hs
    have hp := hI.pool
    simp only [PoolOk, hs] at hp
    simp [hp] at hw
  have hout := hI.output
  refine { pend_le := hI.pend_le, drain_le := hI.drain_le, wgCount := hI.wgCount,
           submitting := fun rest hs => absurd hs (hnotsub rest), pool := ?pool,
           output := hout, account := ?account, fails := ?fails }
  case pool =>
    have hp := hI.pool
    unfold PoolOk at hp ⊢
    cases hmm : s.main <;> simp only [hmm] at hp ⊢ <;>
      first
        | exact absurd hmm (hnotsub _)
        | simpa [List.length_set] using hp
  case account =>
    show errC.length + outC.length + inC.length + inflight (s.workers.set i w1) +
      drained cfg s.main + (pending s.main).length = numRequests cfg
    unfold inflight
    rcases stepWorkerPc_inv cfg env s w w1 inC outC errC hp with
      ⟨url, rest, hpc, hin, rfl, rfl, rfl, rfl⟩ | ⟨url, err, hpc, hg, rfl, rfl, rfl, rfl⟩ |
      ⟨url, body, count, hpc, hg, hc, rfl, rfl, rfl, rfl⟩ |
      ⟨err, hpc, hl, rfl, rfl, rfl, rfl⟩ | ⟨res, hpc, hl, rfl, rfl, rfl, rfl⟩ <;>
    · simp only [busy, hpc] at hb
      try simp only [List.length_append, List.length_cons, List.length_nil] at hacc ⊢
      first
        | omega
        | (rw [hin] at hacc; simp only [List.length_cons] at hacc; omega)
  case fails =>
    show ((s.workers.set i w1).map (doomed env)).sum + failCount env inC +
      failCount env (jobsOf env (pending s.main)) = failCount env (jobsOf env cfg.args)
    rcases stepWorkerPc_inv cfg env s w w1 inC outC errC hp with
      ⟨url, rest, hpc, hin, rfl, rfl, rfl, rfl⟩ | ⟨url, err, hpc, hg, rfl, rfl, rfl, rfl⟩ |
      ⟨url, body, count, hpc, hg, hc, rfl, rfl, rfl, rfl⟩ |
      ⟨err, hpc, hl, rfl, rfl, rfl, rfl⟩ | ⟨res, hpc, hl, rfl, rfl, rfl, rfl⟩
    · simp only [doomed, hpc] at hd
      rw [hin, failCount_cons] at hfl
      omega
    · simp only [doomed, hpc, isFail, hg, if_true] at hd
      omega
    · simp only [doomed, hpc, isFail, hg] at hd
      simp only [Bool.false_eq_true, if_false] at hd
      omega
    · simp only [doomed, hpc] at hd
      omega
    · simp only [doomed, hpc] at hd
      omega

theorem inv_selectOut (cfg : Config) (env : Env) (s s1 : Sys)
    (hI : Inv cfg env s) (h : stepSelectOut cfg s = some s1) : Inv cfg env s1 := by
  unfold stepSelectOut at h
  cases hm : s.main with
  | drain i =>
    cases ho : s.outChan with
    | nil => simp [hm, ho] at h
    | cons res rest =>
      by_cases hi : i < numRequests cfg
      · simp only [hm, ho, hi, if_true, Option.some.injEq] at h
        subst h
        obtain ⟨hpl, hdl, hacc, hwg, hsub, hpool, hfl, rs, es, ho1, ho2, ho3, ho4⟩ := hI
        simp only [hm, ho, pending, drained, sumLine, PoolOk, List.length_cons,
          List.length_nil] at hpl hdl hacc hwg hpool hfl ho1 ho3
        refine ⟨?_, ?_, ?_, ?_, ?_, ?_, ?_, rs ++ [res], es, ?_, ?_, ?_, ?_⟩
        · simp [pending]
        · simp only [drained]; omega
        · simp only [drained, pending, List.length_nil]; omega
        · simp only [drained, hwg]; push_cast; omega
        · intro rest1 hr; simp at hr
        · simpa [PoolOk] using hpool
        · simpa [pending] using hfl
        · simp [sumLine, ho1]
        · exact ho2
        · simp only [drained, List.length_append, List.length_cons, List.length_nil]; omega
        · simp only [addFound, ho4, wrapInt_add, List.map_append, List.sum_append,
            List.map_cons, List.map_nil, List.sum_cons, List.sum_nil, add_zero]
      · simp [hm, ho, hi] at h
  | submit rest => simp [hm] at h
  | spawn i => simp [hm] at h
  | wait => simp [hm] at h
  | returned => simp [hm] at h

theorem inv_selectErr (cfg : Config) (env : Env) (s s1 : Sys)
    (hI : Inv cfg env s) (h : stepSelectErr cfg s = some s1) : Inv cfg env s1 := by
  unfold stepSelectErr at h
  cases hm : s.main with
  | drain i =>
    cases ho : s.errChan with
    | nil => simp [hm, ho] at h
    | cons err rest =>
      by_cases hi : i < numRequests cfg
      · simp only [hm, ho, hi, if_true, Option.some.injEq] at h
        subst h
        obtain ⟨hpl, hdl, hacc, hwg, hsub, hpool, hfl, rs, es, ho1, ho2, ho3, ho4⟩ := hI
        simp only [hm, ho, pending, drained, sumLine, PoolOk, List.length_cons,
          List.length_nil] at hpl hdl hacc hwg hpool hfl ho1 ho3
        refine ⟨?_, ?_, ?_, ?_, ?_, ?_, ?_, rs, es ++ [err], ?_, ?_, ?_, ?_⟩
        · simp [pending]
        · simp only [drained]; omega
        · simp only [drained, pending, List.length_nil]; omega
        · simp only [drained, hwg]; push_cast; omega
        · intro rest1 hr; simp at hr
        · simpa [PoolOk] using hpool
        · simpa [pending] using hfl
        · simp [sumLine, ho1]
        · simp [ho2]
        · simp only [drained, List.length_append, List.length_cons, List.length_nil]; omega
        · exact ho4
      · simp [hm, ho, hi] at h
  | submit rest => simp [hm] at h
  | spawn i => simp [hm] at h
  | wait => simp [hm] at h
  | returned => simp [hm] at h

theorem jobsOf_cons_ok (env : Env) (a job : String) (rest : List String)
    (h : validate env a = Except.ok job) : jobsOf env (a :: rest) = job :: jobsOf env rest := by
  simp [jobsOf, jobOf, h, List.filterMap_cons]

theorem jobsOf_cons_error (env : Env) (a err : String) (rest : List String)
    (h : validate env a = Except.error err) : jobsOf env (a :: rest) = jobsOf env rest := by
  simp [jobsOf, jobOf, h, List.filterMap_cons]

theorem errsOf_cons_ok (env : Env) (a job : String) (rest : List String)
    (h : validate env a = Except.ok job) : errsOf env (a :: rest) = errsOf env rest := by
  simp [errsOf, errOf, h, List.filterMap_cons]

theorem errsOf_cons_error (env : Env) (a err : String) (rest : List String)
    (h : validate env a = Except.error err) : errsOf env (a :: rest) = err :: errsOf env rest := by
  simp [errsOf, errOf, h, List.filterMap_cons]

theorem jobsOf_append (env : Env) (l1 l2 : List String) :
    jobsOf env (l1 ++ l2) = jobsOf env l1 ++ jobsOf env l2 := by
  simp [jobsOf]

theorem errsOf_append (env : Env) (l1 l2 : List String) :
    errsOf env (l1 ++ l2) = errsOf env l1 ++ errsOf env l2 := by
  simp [errsOf]

theorem inv_main (cfg : Config) (env : Env) (s s1 : Sys)
    (hI : Inv cfg env s) (h : stepMain cfg env s = some s1) : Inv cfg env s1 := by
  unfold stepMain at h
  obtain ⟨hpl, hdl, hacc, hwg, hsub, hpool, hfl, rs, es, ho1, ho2, ho3, ho4⟩ := hI
  cases hm : s.main with
  | submit args =>
    obtain ⟨done, hd1, hd2, hd3, hd4⟩ := hsub args hm
    simp only [hm, pending, drained, sumLine, PoolOk] at hpl hdl hacc hwg hpool hfl ho1 ho3
    cases args with
    | nil =>
      simp only [hm, Option.some.injEq] at h
      subst h
      refine ⟨?_, ?_, ?_, ?_, ?_, ?_, ?_, rs, es, ?_, ?_, ?_, ?_⟩
      · simp [pending]
      · simp [drained]
      · simpa [drained, pending] using hacc
      · simpa [drained] using hwg
      · intro rest1 hr; simp at hr
      · simp [PoolOk, hpool]
      · simpa [pending] using hfl
      · simpa [sumLine] using ho1
      · exact ho2
      · simpa [drained] using ho3
      · exact ho4
    | cons a rest =>
      simp only [List.length_cons] at hpl hacc
      cases hv : validate env a with
      | error err =>
        by_cases hl : s.errChan.length < numRequests cfg
        · simp only [hm, hv, hl, if_true, Option.some.injEq] at h
          subst h
          rw [jobsOf_cons_error env a err rest hv] at hfl
          refine ⟨?_, ?_, ?_, ?_, ?_, ?_, ?_, rs, es, ?_, ?_, ?_, ?_⟩
          · simp only [pending]; omega
          · simp [drained]
          · simp only [drained, pending, List.length_append, List.length_cons,
              List.length_nil]; omega
          · simpa [drained] using hwg
          · intro rest1 hr
            simp only [MainPc.submit.injEq] at hr
            subst hr
            refine ⟨done ++ [a], by simp [hd1], ?_, ?_, hd4⟩
            · rw [errsOf_append, hd2, errsOf_cons_error env a err [] hv]; rfl
            · rw [jobsOf_append, hd3, jobsOf_cons_error env a err [] hv]; simp [jobsOf]
          · simp [PoolOk, hpool]
          · simpa [pending] using hfl
          · simpa [sumLine] using ho1
          · exact ho2
          · simpa [drained] using ho3
          · exact ho4
        · simp [hm, hv, hl] at h
      | ok job =>
        by_cases hl : s.inChan.length < numRequests cfg
        · simp only [hm, hv, hl, if_true, Option.some.injEq] at h
          subst h
          rw [jobsOf_cons_ok env a job rest hv, failCount_cons] at hfl
          refine ⟨?_, ?_, ?_, ?_, ?_, ?_, ?_, rs, es, ?_, ?_, ?_, ?_⟩
          · simp only [pending]; omega
          · simp [drained]
          · simp only [drained, pending, List.length_append, List.length_cons,
              List.length_nil]; omega
          · simpa [drained] using hwg
          · intro rest1 hr
            simp only [MainPc.submit.injEq] at hr
            subst hr
            refine ⟨done ++ [a], by simp [hd1], ?_, ?_, hd4⟩
            · rw [errsOf_append, hd2, errsOf_cons_ok env a job [] hv]; simp [errsOf]
            · rw [jobsOf_append, hd3, jobsOf_cons_ok env a job [] hv]; rfl
          · simp [PoolOk, hpool]
          · simp only [pending, failCount_append, failCount_cons]
            simp only [failCount, List.filter_nil, List.length_nil] at hfl ⊢
            omega
          · simpa [sumLine] using ho1
          · exact ho2
          · simpa [drained] using ho3
          · exact ho4
        · simp [hm, hv, hl] at h
  | spawn i =>
    simp only [hm, pending, drained, sumLine, PoolOk] at hpl hdl hacc hwg hpool hfl ho1 ho3
    by_cases hi : (i : Int) < cfg.numPar
    · simp only [hm, hi, if_true, Option.some.injEq] at h
      subst h
      refine ⟨?_, ?_, ?_, ?_, ?_, ?_, ?_, rs, es, ?_, ?_, ?_, ?_⟩
      · simp [pending]
      · simp [drained]
      · simpa [drained, pending, inflight, busy] using hacc
      · simpa [drained] using hwg
      · intro rest1 hr; simp at hr
      · simp [PoolOk, hpool]
      · simpa [pending, doomed] using hfl
      · simpa [sumLine] using ho1
      · exact ho2
      · simpa [drained] using ho3
      · exact ho4
    · simp only [hm, hi, if_false, Option.some.injEq] at h
      subst h
      refine ⟨?_, ?_, ?_, ?_, ?_, ?_, ?_, rs, es, ?_, ?_, ?_, ?_⟩
      · simp [pending]
      · simp [drained]
      · simpa [drained, pending] using hacc
      · simpa [drained] using hwg
      · intro rest1 hr; simp at hr
      · simp only [PoolOk, hpool]; omega
      · simpa [pending] using hfl
      · simpa [sumLine] using ho1
      · exact ho2
      · simpa [drained] using ho3
      · exact ho4
  | drain i =>
    simp only [hm, pending, drained, sumLine, PoolOk] at hpl hdl hacc hwg hpool hfl ho1 ho3
    by_cases hi : i < numRequests cfg
    · simp [hm, hi] at h
    · simp only [hm, hi, if_false, Option.some.injEq] at h
      subst h
      have hiN : i = numRequests cfg := by omega
      refine ⟨?_, ?_, ?_, ?_, ?_, ?_, ?_, rs, es, ?_, ?_, ?_, ?_⟩
      · simp [pending]
      · simp [drained]
      · simp only [drained, pending]; omega
      · simp only [drained, hwg, hiN]
      · intro rest1 hr; simp at hr
      · simpa [PoolOk] using hpool
      · simpa [pending] using hfl
      · simp [sumLine, ho1]
      · exact ho2
      · simp only [drained]; omega
      · exact ho4
  | wait =>
    simp only [hm, pending, drained, sumLine, PoolOk] at hpl hdl hacc hwg hpool hfl ho1 ho3
    by_cases hw : s.wg = 0
    · simp only [hm, hw, if_true, Option.some.injEq] at h
      subst h
      refine ⟨?_, ?_, ?_, ?_, ?_, ?_, ?_, rs, es, ?_, ?_, ?_, ?_⟩
      · simp [pending]
      · simp [drained]
      · simpa [drained, pending] using hacc
      · simp [drained, hwg]
      · intro rest1 hr; simp at hr
      · simpa [PoolOk] using hpool
      · simpa [pending] using hfl
      · simpa [sumLine] using ho1
      · exact ho2
      · simpa [drained] using ho3
      · exact ho4
    · simp [hm, hw] at h
  | returned => simp [hm] at h

theorem inv_step (cfg : Config) (env : Env) (s s1 : Sys) (a : Action)
    (hI : Inv cfg env s) (h : sysStep cfg env s a = some s1) : Inv cfg env s1 := by
  cases a with
  | main => exact inv_main cfg env s s1 hI h
  | selectOut => exact inv_selectOut cfg env s s1 hI h
  | selectErr => exact inv_selectErr cfg env s s1 hI h
  | worker i => exact inv_worker cfg env s s1 i hI h

theorem inv_init (cfg : Config) (env : Env) (h : fastFail cfg = false) :
    Inv cfg env (initState cfg) := by
  unfold initState
  simp only [h, Bool.false_eq_true, if_false]
  refine ⟨?_, ?_, ?_, ?_, ?_, ?_, ?_, [], [], ?_, ?_, ?_, ?_⟩
  · simp [pending, numRequests]
  · simp [drained]
  · simp [pending, drained, inflight, numRequests]
  · simp [drained]
  · intro rest hr
    simp only [MainPc.submit.injEq] at hr
    subst hr
    exact ⟨[], rfl, rfl, rfl, rfl⟩
  · simp [PoolOk]
  · simp [pending, failCount]
  · simp [sumLine]
  · rfl
  · simp [drained]
  · simp [wrapInt_zero]

theorem run_inv (cfg : Config) (env : Env) (acts : List Action) :
    ∀ s s1, Inv cfg env s → run cfg env s acts = some s1 → Inv cfg env s1 := by
  induction acts with
  | nil =>
    intro s s1 hI h
    simp only [run, Option.some.injEq] at h
    exact h ▸ hI
  | cons a rest ih =>
    intro s s1 hI h
    simp only [run] at h
    cases hs : sysStep cfg env s a with
    | none => simp [hs] at h
    | some s2 =>
      simp only [hs] at h
      exact ih s2 s1 (inv_step cfg env s s2 a hI hs) h

theorem inv_reachable (cfg : Config) (env : Env) (s : Sys) (hff : fastFail cfg = false)
    (hr : Reachable cfg env s) : Inv cfg env s := by
  obtain ⟨acts, h⟩ := hr
  exact run_inv cfg env acts _ s (inv_init cfg env hff) h

theorem rank_worker (cfg : Config) (env : Env) (s s1 : Sys) (i : Nat)
    (h : stepWorker cfg env s i = some s1) : rank cfg s1 < rank cfg s := by
  obtain ⟨_, w, w1, inC, outC, errC, hw, hp, rfl⟩ := stepWorker_inv cfg env s s1 i h
  have hb := sum_map_set workRank s.workers i w w1 hw
  show mainRank cfg s.main + 3 * inC.length + ((s.workers.set i w1).map workRank).sum <
    mainRank cfg s.main + 3 * s.inChan.length + (s.workers.map workRank).sum
  rcases stepWorkerPc_inv cfg env s w w1 inC outC errC hp with
    ⟨url, rest, hpc, hin, rfl, rfl, rfl, rfl⟩ | ⟨url, err, hpc, hg, rfl, rfl, rfl, rfl⟩ |
    ⟨url, body, count, hpc, hg, hc, rfl, rfl, rfl, rfl⟩ |
    ⟨err, hpc, hl, rfl, rfl, rfl, rfl⟩ | ⟨res, hpc, hl, rfl, rfl, rfl, rfl⟩
  · simp only [workRank, hpc] at hb
    rw [hin]
    simp only [List.length_cons]
    omega
  · simp only [workRank, hpc] at hb
    omega
  · simp only [workRank, hpc] at hb
    omega
  · simp only [workRank, hpc] at hb
    omega
  · simp only [workRank, hpc] at hb
    omega

theorem rank_main (cfg : Config) (env : Env) (s s1 : Sys)
    (h : stepMain cfg env s = some s1) : rank cfg s1 < rank cfg s := by
  unfold stepMain at h
  unfold rank
  cases hm : s.main with
  | submit args =>
    cases args with
    | nil =>
      simp only [hm, Option.some.injEq] at h
      subst h
      simp only [mainRank, List.length_nil]
      omega
    | cons a rest =>
      cases hv : validate env a with
      | error err =>
        by_cases hl : s.errChan.length < numRequests cfg
        · simp only [hm, hv, hl, if_true, Option.some.injEq] at h
          subst h
          simp only [mainRank, List.length_cons]
          omega
        · simp [hm, hv, hl] at h
      | ok job =>
        by_cases hl : s.inChan.length < numRequests cfg
        · simp only [hm, hv, hl, if_true, Option.some.injEq] at h
          subst h
          simp only [mainRank, List.length_cons, List.length_append, List.length_nil]
          omega
        · simp [hm, hv, hl] at h
  | spawn i =>
    by_cases hi : (i : Int) < cfg.numPar
    · simp only [hm, hi, if_true, Option.some.injEq] at h
      subst h
      simp only [mainRank, List.map_append, List.sum_append, List.map_cons, List.map_nil,
        List.sum_cons, List.sum_nil, workRank]
      omega
    · simp only [hm, hi, if_false, Option.some.injEq] at h
      subst h
      simp only [mainRank]
      omega
  | drain i =>
    by_cases hi : i < numRequests cfg
    · simp [hm, hi] at h
    · simp only [hm, hi, if_false, Option.some.injEq] at h
      subst h
      simp only [mainRank]
      omega
  | wait =>
    by_cases hw : s.wg = 0
    · simp only [hm, hw, if_true, Option.some.injEq] at h
      subst h
      simp only [mainRank]
      omega
    · simp [hm, hw] at h
  | returned => simp [hm] at h

theorem rank_selectOut (cfg : Config) (s s1 : Sys)
    (h : stepSelectOut cfg s = some s1) : rank cfg s1 < rank cfg s := by
  unfold stepSelectOut at h
  unfold rank
  cases hm : s.main with
  | drain i =>
    cases ho : s.outChan with
    | nil => simp [hm, ho] at h
    | cons res rest =>
      by_cases hi : i < numRequests cfg
      · simp only [hm, ho, hi, if_true, Option.some.injEq] at h
        subst h
        simp only [mainRank]
        omega
      · simp [hm, ho, hi] at h
  | submit rest => simp [hm] at h
  | spawn i => simp [hm] at h
  | wait => simp [hm] at h
  | returned => simp [hm] at h

theorem rank_selectErr (cfg : Config) (s s1 : Sys)
    (h : stepSelectErr cfg s = some s1) : rank cfg s1 < rank cfg s := by
  unfold stepSelectErr at h
  unfold rank
  cases hm : s.main with
  | drain i =>
    cases ho : s.errChan with
    | nil => simp [hm, ho] at h
    | cons err rest =>
      by_cases hi : i < numRequests cfg
      · simp only [hm, ho, hi, if_true, Option.some.injEq] at h
        subst h
        simp only [mainRank]
        omega
      · simp [hm, ho, hi] at h
  | submit rest => simp [hm] at h
  | spawn i => simp [hm] at h
  | wait => simp [hm] at h
  | returned => simp [hm] at h

theorem rank_step (cfg : Config) (env : Env) (s s1 : Sys) (a : Action)
    (h : sysStep cfg env s a = some s1) : rank cfg s1 < rank cfg s := by
  cases a with
  | main => exact rank_main cfg env s s1 h
  | selectOut => exact rank_selectOut cfg s s1 h
  | selectErr => exact rank_selectErr cfg s s1 h
  | worker i => exact rank_worker cfg env s s1 i h

theorem exists_pos_of_sum_pos (f : Worker → Nat) :
    ∀ ws : List Worker, 0 < (ws.map f).sum →
      ∃ (i : Nat) (w : Worker), ws[i]? = some w ∧ 0 < f w := by
  intro ws
  induction ws with
  | nil => intro h; simp at h
  | cons a l ih =>
    intro h
    by_cases ha : 0 < f a
    · exact ⟨0, a, by simp, ha⟩
    · simp only [List.map_cons, List.sum_cons] at h
      obtain ⟨i, w, hw, hf⟩ := ih (by omega)
      exact ⟨i + 1, w, by simpa using hw, hf⟩

theorem exists_zero_of_sum_lt (f : Worker → Nat) :
    ∀ ws : List Worker, (ws.map f).sum < ws.length →
      ∃ (i : Nat) (w : Worker), ws[i]? = some w ∧ f w = 0 := by
  intro ws
  induction ws with
  | nil => intro h; simp at h
  | cons a l ih =>
    intro h
    by_cases ha : f a = 0
    · exact ⟨0, a, by simp, ha⟩
    · simp only [List.map_cons, List.sum_cons, List.length_cons] at h
      obtain ⟨i, w, hw, hf⟩ := ih (by omega)
      exact ⟨i + 1, w, by simpa using hw, hf⟩

theorem le_sum_of_getElem (f : Worker → Nat) :
    ∀ (ws : List Worker) (i : Nat) (w : Worker), ws[i]? = some w → f w ≤ (ws.map f).sum := by
  intro ws
  induction ws with
  | nil => intro i w h; simp at h
  | cons a l ih =>
    intro i w h
    cases i with
    | zero =>
      simp only [List.getElem?_cons_zero, Option.some.injEq] at h
      subst h
      simp
    | succ k =>
      simp only [List.getElem?_cons_succ] at h
      have := ih k w h
      simp only [List.map_cons, List.sum_cons]
      omega

theorem send_enabled (cfg : Config) (env : Env) (s : Sys) (hI : Inv cfg env s)
    (i : Nat) (w : Worker) (hw : s.workers[i]? = some w) :
    (∀ err, w.pc = WPc.sendErr err → s.errChan.length < numRequests cfg) ∧
      (∀ res, w.pc = WPc.sendOut res → s.outChan.length < numRequests cfg) := by
  have hb := le_sum_of_getElem busy s.workers i w hw
  have hacc := hI.account
  unfold inflight at hacc
  constructor
  · intro err hpc
    simp only [busy, hpc] at hb
    omega
  · intro res hpc
    simp only [busy, hpc] at hb
    omega

theorem submit_enabled (cfg : Config) (env : Env) (s : Sys) (hI : Inv cfg env s)
    (a : String) (rest : List String) (hm : s.main = MainPc.submit (a :: rest)) :
    s.errChan.length < numRequests cfg ∧ s.inChan.length < numRequests cfg := by
  have hacc := hI.account
  simp only [hm, pending, List.length_cons] at hacc
  omega

theorem worker_step_some (cfg : Config) (env : Env) (s : Sys) (i : Nat) (w : Worker)
    (r : Worker × List String × List result × List String)
    (hm : s.main ≠ MainPc.returned) (hw : s.workers[i]? = some w)
    (hp : stepWorkerPc cfg env s w = some r) :
    ∃ s1, sysStep cfg env s (Action.worker i) = some s1 := by
  obtain ⟨w1, inC, outC, errC⟩ := r
  simp [sysStep, stepWorker, hm, hw, hp]

theorem busy_can_step (cfg : Config) (env : Env) (s : Sys) (hI : Inv cfg env s)
    (i : Nat) (w : Worker) (hw : s.workers[i]? = some w) (hb : 0 < busy w) :
    ∃ r, stepWorkerPc cfg env s w = some r := by
  obtain ⟨he, ho⟩ := send_enabled cfg env s hI i w hw
  unfold stepWorkerPc
  cases hpc : w.pc with
  | recv => simp [busy, hpc] at hb
  | returned => simp [busy, hpc] at hb
  | get url =>
    cases hg : env.get url with
    | error err => simp [hg]
    | ok body =>
      obtain ⟨n, hn⟩ := workerCount_total (wordRunes cfg) body
      simp [hg, hn]
  | sendErr err => simp [he err hpc]
  | sendOut res => simp [ho res hpc]

theorem progress (cfg : Config) (env : Env) (s : Sys) (hI : Inv cfg env s)
    (hf : (failCount env (jobsOf env cfg.args) : Int) < cfg.numPar)
    (hm : s.main ≠ MainPc.returned) : ∃ a s1, sysStep cfg env s a = some s1 := by
  cases hmm : s.main with
  | returned => exact absurd hmm hm
  | submit args =>
    cases args with
    | nil => exact ⟨Action.main, Option.isSome_iff_exists.mp (by simp [sysStep, stepMain, hmm])⟩
    | cons a rest =>
      obtain ⟨h1, h2⟩ := submit_enabled cfg env s hI a rest hmm
      cases hv : validate env a with
      | error err => exact ⟨Action.main, Option.isSome_iff_exists.mp (by simp [sysStep, stepMain, hmm, hv, h1])⟩
      | ok job => exact ⟨Action.main, Option.isSome_iff_exists.mp (by simp [sysStep, stepMain, hmm, hv, h2])⟩
  | spawn i =>
    by_cases hi : (i : Int) < cfg.numPar
    · exact ⟨Action.main, Option.isSome_iff_exists.mp (by simp [sysStep, stepMain, hmm, hi])⟩
    · exact ⟨Action.main, Option.isSome_iff_exists.mp (by simp [sysStep, stepMain, hmm, hi])⟩
  | wait =>
    have hwg := hI.wgCount
    simp only [hmm, drained, sub_self] at hwg
    exact ⟨Action.main, Option.isSome_iff_exists.mp (by simp [sysStep, stepMain, hmm, hwg])⟩
  | drain i =>
    by_cases hi : i < numRequests cfg
    · cases ho : s.outChan with
      | cons res rest => exact ⟨Action.selectOut, Option.isSome_iff_exists.mp (by simp [sysStep, stepSelectOut, hmm, ho, hi])⟩
      | nil =>
        cases he : s.errChan with
        | cons err rest =>
          exact ⟨Action.selectErr, Option.isSome_iff_exists.mp (by simp [sysStep, stepSelectErr, hmm, he, hi])⟩
        | nil =>
          have hacc := hI.account
          simp only [hmm, ho, he, pending, drained, List.length_nil] at hacc
          by_cases hfl : 0 < inflight s.workers
          · obtain ⟨j, w, hw, hb⟩ := exists_pos_of_sum_pos busy s.workers hfl
            obtain ⟨r, hr⟩ := busy_can_step cfg env s hI j w hw hb
            exact ⟨Action.worker j, worker_step_some cfg env s j w r hm hw hr⟩
          · have hpool := hI.pool
            have hfails := hI.fails
            simp only [PoolOk, hmm] at hpool
            have hlt : (s.workers.map (doomed env)).sum < s.workers.length := by omega
            obtain ⟨j, w, hw, hd⟩ := exists_zero_of_sum_lt (doomed env) s.workers hlt
            have hb := le_sum_of_getElem busy s.workers j w hw
            unfold inflight at hfl hacc
            cases hin : s.inChan with
            | nil => simp only [hin, List.length_nil] at hacc; omega
            | cons url rest =>
              have hr : ∃ r, stepWorkerPc cfg env s w = some r := by
                unfold stepWorkerPc
                cases hpc : w.pc with
                | recv => simp [hin]
                | returned => simp [doomed, hpc] at hd
                | get u => simp only [busy, hpc] at hb; omega
                | sendErr err => simp only [busy, hpc] at hb; omega
                | sendOut res => simp only [busy, hpc] at hb; omega
              obtain ⟨r, hr⟩ := hr
              exact ⟨Action.worker j, worker_step_some cfg env s j w r hm hw hr⟩
    · exact ⟨Action.main, Option.isSome_iff_exists.mp (by simp [sysStep, stepMain, hmm, hi])⟩

theorem drainedCount_eq (cfg : Config) (env : Env) (s : Sys) (hI : Inv cfg env s) :
    drainedCount s = drained cfg s.main := by
  obtain ⟨rs, es, ho1, ho2, ho3, _⟩ := hI.output
  have h1 : ((rs.map Line.result).filter Line.isOutcome).length = rs.length := by
    rw [List.filter_eq_self.mpr, List.length_map]
    intro l hl
    obtain ⟨r, _, rfl⟩ := List.mem_map.mp hl
    rfl
  have h2 : ((es.map Line.error).filter Line.isOutcome).length = es.length := by
    rw [List.filter_eq_self.mpr, List.length_map]
    intro l hl
    obtain ⟨r, _, rfl⟩ := List.mem_map.mp hl
    rfl
  have h3 : (sumLine s).filter Line.isOutcome = [] := by
    unfold sumLine
    cases s.main <;> simp [Line.isOutcome]
  unfold drainedCount
  rw [ho1, ho2, List.filter_append, List.length_append, h1, h2, h3, List.length_nil]
  omega

theorem finished_of_inv (cfg : Config) (env : Env) (s : Sys) (hI : Inv cfg env s)
    (hm : s.main = MainPc.returned) : Finished cfg s := by
  obtain ⟨rs, es, ho1, ho2, ho3, ho4⟩ := hI.output
  have hd := drainedCount_eq cfg env s hI
  simp only [sumLine, hm, drained] at ho1 ho3 hd
  exact ⟨hm, hd, rs, es, ho1, ho2, ho3, ho4⟩

theorem inevitable_of_rank (cfg : Config) (env : Env)
    (hf : (failCount env (jobsOf env cfg.args) : Int) < cfg.numPar) :
    ∀ (n : Nat) (s : Sys), rank cfg s ≤ n → Inv cfg env s →
      Inevitable cfg env (Finished cfg) s := by
  intro n
  induction n with
  | zero =>
    intro s hr hI
    by_cases hm : s.main = MainPc.returned
    · exact Inevitable.now s (finished_of_inv cfg env s hI hm)
    · obtain ⟨a, s1, hs⟩ := progress cfg env s hI hf hm
      have := rank_step cfg env s s1 a hs
      omega
  | succ k ih =>
    intro s hr hI
    by_cases hm : s.main = MainPc.returned
    · exact Inevitable.now s (finished_of_inv cfg env s hI hm)
    · refine Inevitable.later s (progress cfg env s hI hf hm) ?_
      intro a s1 hs
      have := rank_step cfg env s s1 a hs
      exact ih s1 (by omega) (inv_step cfg env s s1 a hI hs)

theorem reachable_fastFail (cfg : Config) (env : Env) (s : Sys) (hff : fastFail cfg = true)
    (hr : Reachable cfg env s) : s = initState cfg := by
  obtain ⟨acts, h⟩ := hr
  cases acts with
  | nil =>
    simp only [run, Option.some.injEq] at h
    exact h.symm
  | cons a rest =>
    have hnone : sysStep cfg env (initState cfg) a = none := by
      cases a <;> simp [sysStep, stepMain, stepSelectOut, stepSelectErr, stepWorker, initState, hff]
    simp [run, hnone] at h

theorem errsOf_jobsOf_length (env : Env) (l : List String) :
    (errsOf env l).length + (jobsOf env l).length = l.length := by
  induction l with
  | nil => rfl
  | cons a rest ih =>
    cases hv : validate env a with
    | error err =>
      rw [errsOf_cons_error env a err rest hv, jobsOf_cons_error env a err rest hv]
      simp only [List.length_cons]
      omega
    | ok job =>
      rw [errsOf_cons_ok env a job rest hv, jobsOf_cons_ok env a job rest hv]
      simp only [List.length_cons]
      omega

theorem drainLoop_wrap (os : List Outcome) :
    ∀ a : Int, drainLoop (wrapInt a) os = wrapInt (a + successSum os) := by
  induction os with
  | nil => intro a; simp [drainLoop, successSum]
  | cons o rest ih =>
    intro a
    cases o with
    | success res =>
      simp only [drainLoop, addFound, wrapInt_add, ih, successSum, found?,
        List.filterMap_cons, List.sum_cons]
      rw [add_assoc]
    | failure err =>
      simp only [drainLoop, ih, successSum, found?, List.filterMap_cons]

theorem successSum_perm (os os1 : List Outcome) (h : os.Perm os1) :
    successSum os = successSum os1 :=
  (h.filterMap found?).sum_eq

theorem successSum_map_success (rs : List result) :
    successSum (rs.map Outcome.success) = (rs.map result.numFind).sum := by
  induction rs with
  | nil => rfl
  | cons r rest ih =>
    simp only [successSum, List.map_cons, List.filterMap_cons, found?, List.sum_cons] at ih ⊢
    rw [ih]

theorem sum_line_of_reachable (cfg : Config) (env : Env) (s : Sys)
    (hr : Reachable cfg env s) (rs : List result) (total : Int)
    (h : s.stdout = rs.map Line.result ++ [Line.sum total]) :
    total = wrapInt ((rs.map result.numFind).sum) := by
  cases hff : fastFail cfg with
  | true =>
    have := reachable_fastFail cfg env s hff hr
    subst this
    simp [initState, hff] at h
  | false =>
    obtain ⟨rs1, es, ho1, _, _, ho4⟩ := (inv_reachable cfg env s hff hr).output
    rw [ho1] at h
    have hcase : sumLine s = [] ∨ sumLine s = [Line.sum s.sum] := by
      unfold sumLine
      cases s.main <;> simp
    rcases hcase with hs | hs
    · rw [hs, List.append_nil] at h
      have hmem : Line.sum total ∈ rs1.map Line.result := by
        rw [h]
        simp
      simp at hmem
    · rw [hs] at h
      obtain ⟨h1, h2⟩ := List.append_inj' h rfl
      simp only [List.cons.injEq, Line.sum.injEq, and_true] at h2
      have hinj : Function.Injective Line.result := by
        intro x y hxy
        exact Line.result.inj hxy
      have h3 := List.map_injective_iff.mpr hinj h1
      rw [← h2, ← h3]
      exact ho4

/-! ## The claims -/

/-- C1 (code defect): for the word `cat` and the body `cats concatenate cat cat.` the loop of
the worker reports 1, whether the body arrives in one delivery or rune by rune, while the
body holds 2 non-overlapping whole-word occurrences of the word. -/
theorem worker_count_misses_occurrences :
    workerCount "cat".toList ["cats concatenate cat cat.".toList] = some 1 ∧
      workerCount "cat".toList ("cats concatenate cat cat.".toList.map fun c => [c]) = some 1 ∧
      specWordCount "cat".toList "cats concatenate cat cat.".toList = 2 := by
  decide

/-- C2 (code defect): with one worker and two jobs of which the first cannot be fetched, the
process reaches a state in which `main` has drained 1 of its 2 outcomes and no statement of
any goroutine can proceed. -/
theorem drain_stalls_after_failed_fetch :
    ∃ s, Reachable cfgStall demoEnv s ∧ s.main = MainPc.drain 1 ∧ drainedCount s = 1 ∧
      numRequests cfgStall = 2 ∧ s.inChan = ["http://b"] ∧ Stuck cfgStall demoEnv s := by
  refine ⟨{ main := MainPc.drain 1, inChan := ["http://b"], outChan := [], errChan := [],
            workers := [{ pc := WPc.returned, deferred := [] }], wg := 1, sum := 0,
            stdout := [], stderr := [Line.error "timeout"] }, ?_, rfl, by decide, rfl, rfl,
          ?_⟩
  · exact ⟨[Action.main, Action.main, Action.main, Action.main, Action.main,
      Action.worker 0, Action.worker 0, Action.worker 0, Action.selectErr], by decide⟩
  · intro a
    cases a with
    | main => decide
    | selectOut => decide
    | selectErr => decide
    | worker i =>
      cases i with
      | zero => decide
      | succ k => simp [sysStep, stepWorker]

/-- C3 (code defect): the worker that took the job whose fetch fails sends the error and
returns; the next job stays queued in `inChan` and that worker has no further statement. -/
theorem worker_returns_after_failed_fetch :
    ∃ s, run cfgStall demoEnv (initState cfgStall)
        [Action.main, Action.main, Action.main, Action.main, Action.main,
         Action.worker 0, Action.worker 0, Action.worker 0] = some s ∧
      s.errChan = ["timeout"] ∧ s.inChan = ["http://b"] ∧
      s.workers = [{ pc := WPc.returned, deferred := [] }] ∧
      sysStep cfgStall demoEnv s (Action.worker 0) = none := by
  refine ⟨_, rfl, ?_⟩
  decide

/-- C4: the drain loop leaves in `sum` the Go `int` sum of the `numFind` fields of the
success outcomes it received, the same for every permutation of the outcomes and equal to
the exact sum when that fits an `int`; and whenever the process has printed the sum line,
its value is that sum over the result lines printed before it. -/
theorem sum_line_is_sum_of_successes :
    (∀ os : List Outcome, drainLoop 0 os = wrapInt (successSum os)) ∧
      (∀ os os1 : List Outcome, os.Perm os1 → drainLoop 0 os = drainLoop 0 os1) ∧
      (∀ os : List Outcome, -(2 ^ 63) ≤ successSum os → successSum os < 2 ^ 63 →
        drainLoop 0 os = successSum os) ∧
      (∀ (cfg : Config) (env : Env) (s : Sys), Reachable cfg env s →
        ∀ (rs : List result) (total : Int),
          s.stdout = rs.map Line.result ++ [Line.sum total] →
          total = drainLoop 0 (rs.map Outcome.success)) := by
  have h0 : ∀ os : List Outcome, drainLoop 0 os = wrapInt (successSum os) := by
    intro os
    have := drainLoop_wrap os 0
    rw [wrapInt_zero, zero_add] at this
    exact this
  refine ⟨h0, ?_, ?_, ?_⟩
  · intro os os1 hp
    rw [h0, h0, successSum_perm os os1 hp]
  · intro os h1 h2
    rw [h0, wrapInt_of_range _ h1 h2]
  · intro cfg env s hr rs total h
    rw [h0, successSum_map_success]
    exact sum_line_of_reachable cfg env s hr rs total h

/-- The sum line of a full run of `cfgOne`, an instance of the preceding theorem. -/
theorem sum_line_is_sum_of_successes_witness :
    Reachable cfgOne demoEnv
        { main := MainPc.returned, inChan := [], outChan := [], errChan := [],
          workers := [{ pc := WPc.recv, deferred := ["http://a"] }], wg := 0, sum := 1,
          stdout := [Line.result { url := "http://a", numFind := 1 }, Line.sum 1],
          stderr := [] } ∧
      (1 : Int) = drainLoop 0 [Outcome.success { url := "http://a", numFind := 1 }] :=
  have hr : Reachable cfgOne demoEnv
      { main := MainPc.returned, inChan := [], outChan := [], errChan := [],
        workers := [{ pc := WPc.recv, deferred := ["http://a"] }], wg := 0, sum := 1,
        stdout := [Line.result { url := "http://a", numFind := 1 }, Line.sum 1],
        stderr := [] } :=
    ⟨[Action.main, Action.main, Action.main, Action.main, Action.worker 0, Action.worker 0,
      Action.worker 0, Action.selectOut, Action.main, Action.main], by decide⟩
  ⟨hr, sum_line_is_sum_of_successes.2.2.2 cfgOne demoEnv _ hr
    [{ url := "http://a", numFind := 1 }] 1 rfl⟩

/-- C5: while `main` is in the submission loop, the arguments handled so far have each put
one item on a channel: the errors of the arguments that fail `url.Parse` or parse without a
scheme on `errChan`, the strings of the other parsed URLs on `inChan`; the next argument
does the same without blocking; and after the last one the two channels together hold as
many items as there are arguments. -/
theorem submission_one_item_per_argument (cfg : Config) (env : Env) (s : Sys)
    (rest : List String) (hr : Reachable cfg env s) (hm : s.main = MainPc.submit rest) :
    (∃ done, cfg.args = done ++ rest ∧ s.errChan = errsOf env done ∧
        s.inChan = jobsOf env done ∧ s.errChan.length + s.inChan.length = done.length) ∧
      (rest = [] → s.errChan.length + s.inChan.length = numRequests cfg) ∧
      (∀ a rest1, rest = a :: rest1 →
        ∃ s1, stepMain cfg env s = some s1 ∧ s1.main = MainPc.submit rest1 ∧
          s1.errChan = s.errChan ++ (errOf env a).toList ∧
          s1.inChan = s.inChan ++ (jobOf env a).toList ∧
          (errOf env a).toList.length + (jobOf env a).toList.length = 1) ∧
      (∀ a : String,
        (∀ err, env.parse a = Except.error err → errOf env a = some err ∧ jobOf env a = none) ∧
        (∀ u, env.parse a = Except.ok u → u.scheme = "" →
          errOf env a = some ("Please specify protocol for " ++ a) ∧ jobOf env a = none) ∧
        (∀ u, env.parse a = Except.ok u → u.scheme ≠ "" →
          errOf env a = none ∧ jobOf env a = some u.str)) := by
  have hff : fastFail cfg = false := by
    cases hff : fastFail cfg with
    | false => rfl
    | true =>
      have := reachable_fastFail cfg env s hff hr
      subst this
      simp [initState, hff] at hm
  have hI := inv_reachable cfg env s hff hr
  obtain ⟨done, hd1, hd2, hd3, _⟩ := hI.submitting rest hm
  have hlen : s.errChan.length + s.inChan.length = done.length := by
    rw [hd2, hd3]
    exact errsOf_jobsOf_length env done
  refine ⟨⟨done, hd1, hd2, hd3, hlen⟩, ?_, ?_, ?_⟩
  · intro hrest
    subst hrest
    rw [hlen, numRequests, hd1, List.append_nil]
  · intro a rest1 hrest
    subst hrest
    obtain ⟨h1, h2⟩ := submit_enabled cfg env s hI a rest1 hm
    cases hv : validate env a with
    | error err => simp [stepMain, hm, hv, h1, errOf, jobOf]
    | ok job => simp [stepMain, hm, hv, h2, errOf, jobOf]
  · intro a
    refine ⟨?_, ?_, ?_⟩
    · intro err hp
      simp [errOf, jobOf, validate, hp]
    · intro u hp hs
      simp [errOf, jobOf, validate, hp, hs]
    · intro u hp hs
      simp [errOf, jobOf, validate, hp, hs]

/-- The submission loop of `cfgMixed` after two arguments, the second without a scheme: an
instance of the preceding theorem. -/
theorem submission_one_item_per_argument_witness :
    Reachable cfgMixed demoEnv midSubmission ∧
      midSubmission.main = MainPc.submit ["http://down", ":bad"] ∧
      ∃ done, cfgMixed.args = done ++ ["http://down", ":bad"] ∧
        midSubmission.errChan = errsOf demoEnv done ∧
        midSubmission.inChan = jobsOf demoEnv done ∧
        midSubmission.errChan.length + midSubmission.inChan.length = done.length :=
  have hr : Reachable cfgMixed demoEnv midSubmission :=
    ⟨[Action.main, Action.main], by decide⟩
  ⟨hr, rfl,
    (submission_one_item_per_argument cfgMixed demoEnv midSubmission
      ["http://down", ":bad"] hr rfl).1⟩

/-- C6: `main` returns from the input check exactly when the word is empty or there is no
argument; then, whatever `numPar` and the arguments are, the only state of the process is
the one with the usage line on standard error, no job, no worker, nothing drained and
nothing on standard output; otherwise `main` enters the submission loop. -/
theorem fast_fail_iff (cfg : Config) (env : Env) :
    (fastFail cfg = true ↔ (cfg.word = "" ∨ cfg.args = [])) ∧
      (fastFail cfg = true → ∀ s, Reachable cfg env s → s = usageState) ∧
      (fastFail cfg = true → Stuck cfg env usageState) ∧
      (fastFail cfg = false →
        (initState cfg).main = MainPc.submit cfg.args ∧ (initState cfg).stderr = []) := by
  refine ⟨?_, ?_, ?_, ?_⟩
  · unfold fastFail numRequests
    cases cfg.args <;> simp [or_comm]
  · intro hff s hr
    rw [reachable_fastFail cfg env s hff hr]
    simp [initState, hff, usageState]
  · intro _ a
    cases a <;> simp [sysStep, stepMain, stepSelectOut, stepSelectErr, stepWorker, usageState]
  · intro hff
    simp [initState, hff]

/-- The input check on `cfgNoWord`, an instance of the preceding theorem. -/
theorem fast_fail_iff_witness :
    fastFail cfgNoWord = true ∧ Reachable cfgNoWord demoEnv usageState ∧
      Stuck cfgNoWord demoEnv usageState :=
  ⟨by decide, ⟨[], by decide⟩, (fast_fail_iff cfgNoWord demoEnv).2.2.1 (by decide)⟩

/-- C7: for a non-empty word and a body that the first buffered read delivers in full (one
delivery of at most 4096 bytes), the first `MatchReader` leaves nothing of the body unread
and answers whether the body holds a whole-word occurrence of the word; the worker reports
1 if it does and 0 otherwise, never more than 1; for a body without any delivery it
reports 0. -/
theorem worker_count_single_delivery (word d : List Char) (hw : word ≠ [])
    (hd : byteSize d ≤ 4096) :
    (matchReader word [d]).2 = [] ∧
      ((matchReader word [d]).1 = true ↔ Occurs word d) ∧
      (Occurs word d → workerCount word [d] = some 1) ∧
      (¬ Occurs word d → workerCount word [d] = some 0) ∧
      (∀ n, workerCount word [d] = some n → n ≤ 1) ∧
      workerCount word [] = some 0 := by
  have hs := workerCount_single word d
  refine ⟨by rw [matchReader_single], ?_, ?_, ?_, ?_, ?_⟩
  · rw [matchReader_single, hasMatch_iff_occurs]
  · intro ho
    rw [hs, (hasMatch_iff_occurs word d).mpr ho]
    rfl
  · intro ho
    have hf : hasMatch word none d = false := by
      cases hm : hasMatch word none d with
      | false => rfl
      | true => exact absurd ((hasMatch_iff_occurs word d).mp hm) ho
    rw [hs, hf]
    rfl
  · intro n hn
    rw [hs] at hn
    cases hasMatch word none d <;> simp at hn <;> omega
  · simp [workerCount, countLoop, matchReader_nil]

/-- The word `cat` and the body `cats concatenate cat cat.` in one delivery: an instance of
the preceding theorem. -/
theorem worker_count_single_delivery_witness :
    "cat".toList ≠ [] ∧ byteSize "cats concatenate cat cat.".toList ≤ 4096 ∧
      Occurs "cat".toList "cats concatenate cat cat.".toList ∧
      workerCount "cat".toList ["cats concatenate cat cat.".toList] = some 1 :=
  have ho : Occurs "cat".toList "cats concatenate cat cat.".toList :=
    ⟨"cats concatenate ".toList, " cat.".toList, by decide, by decide, by decide⟩
  ⟨by decide, by decide, ho,
    (worker_count_single_delivery "cat".toList "cats concatenate cat cat.".toList
      (by decide) (by decide)).2.2.1 ho⟩

/-- Against C8 as it is worded, at inputs with `numPar ≥ 1` and fewer enqueued jobs whose
fetch fails than workers. With no word and one URL `main` returns from the input check:
0 of 1 outcomes drained and no statement can proceed. During the submission loop drained +
buffered outcomes + jobs in flight + queued jobs falls short of `numRequests` by the
arguments not yet handled. While `main` is still launching workers, every worker launched
so far may have returned, with fewer than `numRequests` outcomes drained. -/
theorem deadlock_claim_fails_outside_drain :
    (1 ≤ cfgNoWord.numPar ∧
        (failCount demoEnv (jobsOf demoEnv cfgNoWord.args) : Int) < cfgNoWord.numPar ∧
        Reachable cfgNoWord demoEnv usageState ∧
        drainedCount usageState < numRequests cfgNoWord ∧
        Stuck cfgNoWord demoEnv usageState) ∧
      (1 ≤ cfgMixed.numPar ∧
        (failCount demoEnv (jobsOf demoEnv cfgMixed.args) : Int) < cfgMixed.numPar ∧
        Reachable cfgMixed demoEnv midSubmission ∧
        drainedCount midSubmission < numRequests cfgMixed ∧
        drainedCount midSubmission +
            (midSubmission.outChan.length + midSubmission.errChan.length) +
            inflight midSubmission.workers + midSubmission.inChan.length ≠
          numRequests cfgMixed) ∧
      (1 ≤ cfgThree.numPar ∧
        (failCount demoEnv (jobsOf demoEnv cfgThree.args) : Int) < cfgThree.numPar ∧
        Reachable cfgThree demoEnv twoReturned ∧
        drainedCount twoReturned < numRequests cfgThree ∧
        ∀ w ∈ twoReturned.workers, w.pc = WPc.returned) := by
  refine ⟨⟨by decide, by decide, ⟨[], by decide⟩, by decide, ?_⟩,
    ⟨by decide, by decide, ⟨[Action.main, Action.main], by decide⟩, by decide, by decide⟩,
    ⟨by decide, by decide, ?_, by decide, by decide⟩⟩
  · intro a
    cases a with
    | main => decide
    | selectOut => decide
    | selectErr => decide
    | worker i => simp [sysStep, stepWorker, usageState]
  · exact ⟨[Action.main, Action.main, Action.main, Action.main, Action.worker 0,
      Action.worker 0, Action.worker 0, Action.main, Action.worker 1, Action.worker 1,
      Action.worker 1], by decide⟩

/-- C8 (amended): past the input check, with `numPar ≥ 1` and fewer enqueued jobs whose
fetch fails than workers, every reachable state satisfies drained + buffered outcomes + jobs
in flight + queued jobs + arguments still to submit = `numRequests` (the last term being 0
once the submission loop is left); in every reachable state with fewer than `numRequests`
outcomes drained some statement can proceed; once `main` is in the drain loop some worker
has not returned; and on every schedule `main` comes to return having drained
`numRequests` outcomes and printed the sum after them. -/
theorem no_deadlock_when_failures_below_pool (cfg : Config) (env : Env)
    (hff : fastFail cfg = false) (hp : 1 ≤ cfg.numPar)
    (hf : (failCount env (jobsOf env cfg.args) : Int) < cfg.numPar) :
    (∀ s, Reachable cfg env s →
        (drainedCount s + (s.outChan.length + s.errChan.length) + inflight s.workers +
            s.inChan.length + (pending s.main).length = numRequests cfg) ∧
          (pending s.main = [] →
            drainedCount s + (s.outChan.length + s.errChan.length) + inflight s.workers +
              s.inChan.length = numRequests cfg) ∧
          (drainedCount s < numRequests cfg → ∃ a s1, sysStep cfg env s a = some s1) ∧
          (∀ i, s.main = MainPc.drain i → ∃ w ∈ s.workers, w.pc ≠ WPc.returned)) ∧
      Inevitable cfg env (Finished cfg) (initState cfg) := by
  constructor
  · intro s hr
    have hI := inv_reachable cfg env s hff hr
    rw [drainedCount_eq cfg env s hI]
    refine ⟨?_, ?_, ?_, ?_⟩
    · have := hI.account
      omega
    · intro hpend
      have := hI.account
      rw [hpend, List.length_nil] at this
      omega
    · intro hlt
      apply progress cfg env s hI hf
      intro hm
      simp [hm, drained] at hlt
    · intro i hm
      have hpool := hI.pool
      have hfails := hI.fails
      simp only [PoolOk, hm] at hpool
      have hlt : (s.workers.map (doomed env)).sum < s.workers.length := by omega
      obtain ⟨j, w, hw, hd⟩ := exists_zero_of_sum_lt (doomed env) s.workers hlt
      refine ⟨w, List.getElem?_mem hw, ?_⟩
      intro hpc
      simp [doomed, hpc] at hd
  · exact inevitable_of_rank cfg env hf _ _ (le_refl _) (inv_init cfg env hff)

/-- Two workers and one enqueued job whose fetch fails (`cfgMixed`): an instance of the
preceding theorem. -/
theorem no_deadlock_when_failures_below_pool_witness :
    fastFail cfgMixed = false ∧ 1 ≤ cfgMixed.numPar ∧
      (failCount demoEnv (jobsOf demoEnv cfgMixed.args) : Int) < cfgMixed.numPar ∧
      Inevitable cfgMixed demoEnv (Finished cfgMixed) (initState cfgMixed) :=
  ⟨by decide, by decide, by decide,
    (no_deadlock_when_failures_below_pool cfgMixed demoEnv (by decide) (by decide)
      (by decide)).2⟩

/-- C9: in every reachable state each of `inChan`, `outChan` and `errChan` holds at most
`numRequests` items, its capacity, and wherever a send is the next statement (of `main` in
the submission loop, of a worker with an error or a result) the channel is not full. -/
theorem channels_within_capacity (cfg : Config) (env : Env) (s : Sys)
    (hr : Reachable cfg env s) :
    s.inChan.length ≤ numRequests cfg ∧ s.outChan.length ≤ numRequests cfg ∧
      s.errChan.length ≤ numRequests cfg ∧
      (∀ a rest, s.main = MainPc.submit (a :: rest) →
        s.errChan.length < numRequests cfg ∧ s.inChan.length < numRequests cfg) ∧
      (∀ (i : Nat) (w : Worker), s.workers[i]? = some w →
        (∀ err, w.pc = WPc.sendErr err → s.errChan.length < numRequests cfg) ∧
        (∀ res, w.pc = WPc.sendOut res → s.outChan.length < numRequests cfg)) := by
  cases hff : fastFail cfg with
  | true =>
    have := reachable_fastFail cfg env s hff hr
    subst this
    simp [initState, hff]
  | false =>
    have hI := inv_reachable cfg env s hff hr
    have hacc := hI.account
    refine ⟨by omega, by omega, by omega, ?_, ?_⟩
    · intro a rest hm
      exact submit_enabled cfg env s hI a rest hm
    · intro i w hw
      exact send_enabled cfg env s hI i w hw

/-- Both workers of `cfgMixed` about to send: an instance of the preceding theorem. -/
theorem channels_within_capacity_witness :
    Reachable cfgMixed demoEnv bothSending ∧
      bothSending.errChan.length < numRequests cfgMixed ∧
      bothSending.outChan.length < numRequests cfgMixed :=
  have hr : Reachable cfgMixed demoEnv bothSending :=
    ⟨[Action.main, Action.main, Action.main, Action.main, Action.main, Action.main,
      Action.main, Action.main, Action.worker 0, Action.worker 1, Action.worker 0,
      Action.worker 1], by decide⟩
  have h := (channels_within_capacity cfgMixed demoEnv bothSending hr).2.2.2.2
  ⟨hr, (h 1 _ rfl).1 "timeout" rfl,
    (h 0 _ rfl).2 { url := "http://a", numFind := 1 } rfl⟩

/-- C10 (code defect): after a successful job the worker has sent the result and waits on
`inChan` with the deferred close of the response body still pending, and the body is still
open when `main` has returned. -/
theorem body_left_open_after_success :
    (∃ s, run cfgOne demoEnv (initState cfgOne)
        [Action.main, Action.main, Action.main, Action.main, Action.worker 0,
         Action.worker 0, Action.worker 0] = some s ∧
      s.outChan = [{ url := "http://a", numFind := 1 }] ∧
      s.workers = [{ pc := WPc.recv, deferred := ["http://a"] }]) ∧
    (∃ s, run cfgOne demoEnv (initState cfgOne)
        [Action.main, Action.main, Action.main, Action.main, Action.worker 0,
         Action.worker 0, Action.worker 0, Action.selectOut, Action.main, Action.main] =
          some s ∧
      s.main = MainPc.returned ∧
      s.workers = [{ pc := WPc.recv, deferred := ["http://a"] }]) := by
  refine ⟨⟨_, rfl, ?_⟩, ⟨_, rfl, ?_⟩⟩
  · decide
  · decide

end Netwc
